import Mathlib

/-!
Verification development for the `Exeedo/hashing` repository
(`src/siphash.py` and `src/hashtable.py`).

The Python sources are shallowly embedded:

* Python unbounded integers are `Int` (negative values use Python's
  infinite two's-complement semantics for `&`, `|`, `>>`, which on `Int`
  are floor-division / modulus based, exactly as in CPython).
* All 64-bit state words of the siphash state are `Nat`s kept below `2^64`
  by the explicit `& (2^64 - 1)` masks that the source itself applies.
* The `while upper:` loop of `SipHash.__compression` and the
  `while True:` probe loop of `HashTable.__lookup_key` need not terminate,
  so both are embedded with an explicit fuel argument; `none` means
  "did not terminate within the given fuel".  Statements about divergence
  are phrased as "no fuel suffices".
* `verbose` printing, `print_hex`, `collision_counter` bookkeeping and the
  `breakpoint()` comment are pure diagnostics with no effect on any result
  or on control flow; they are not modelled.
* `HashTable` hashes its keys through the class-level
  `HashTableEntry.__siphash = SipHash(allow_negative=True, secret_key=None)`
  whose secret key comes from the host runtime (`_Py_HashSecret`).  The
  table layer is therefore embedded parameterized over an arbitrary total
  hash function `h : α → Nat`; concrete instances use the embedded siphash
  at an explicit secret key (key `0` is realizable, e.g. CPython with
  `PYTHONHASHSEED=0`).
-/

namespace Hashing

/-! ## siphash.py -/

/-- `split_lower_upper_words` on non-negative integers (used for the 64-bit
state arithmetic, where all operands are `Nat`s). -/
def splitN (n : Nat) : Nat × Nat :=
  (n &&& ((1 <<< 64) - 1), n >>> 64)

/-- `circular_shift(var, shift)`: circular shift to the left within a
64-bit word, exactly as in the source (split the shifted value and OR the
two halves). -/
def circularShift (v s : Nat) : Nat :=
  let p := splitN (v <<< s)
  p.1 ||| p.2

/-- Helper for `str2int`: `int_msg |= ord(c) << (i << 3)` for each
character `c` at position `i`. -/
def str2intAux : List Char → Nat → Nat
  | [], _ => 0
  | c :: cs, i => (c.toNat <<< (i <<< 3)) ||| str2intAux cs (i + 1)

/-- `str2int`: convert a string to a byte array in integer form. -/
def str2int (s : String) : Nat :=
  str2intAux s.data 0

/-- `negate(val)`: reinterpret a 64-bit pattern as a signed value,
`-(val ^ ((1 << 64) - 1)) - 1`. -/
def negate (val : Nat) : Int :=
  -((val ^^^ ((1 <<< 64) - 1) : Nat) : Int) - 1

/-- Binary length by repeated halving.  The fuel argument only bounds the
recursion depth; `natBitsAux n n` is the exact bit length of `n` (the
depth needed is `log2 n + 1 ≤ n` for `n ≥ 1`). -/
def natBitsAux : Nat → Nat → Nat
  | 0, _ => 0
  | fuel + 1, n => if n = 0 then 0 else natBitsAux fuel (n / 2) + 1

/-- Number of binary digits printed by Python's `bin` for a non-negative
integer: `len(bin(m)) - 2`, i.e. the bit length, except that `bin(0)`
is `'0b0'`, giving 1. -/
def pyBitLen (n : Nat) : Nat :=
  if n = 0 then 1 else natBitsAux n n

/-- `len(bin(msg)) - 2` for an arbitrary Python integer: a negative number
additionally picks up the leading `'-'` sign character. -/
def sizeBits (msg : Int) : Nat :=
  if msg < 0 then pyBitLen (-msg).toNat + 1 else pyBitLen msg.toNat

/-- Python's `|` between an arbitrary integer `a` and a non-negative
integer `b` (infinite two's complement).  For `a < 0` the identity
`a | b = -(((-a-1) - ((-a-1) & b)) ) - 1` expresses the bitwise OR through
`Nat` operations on the complement `-a-1`. -/
def pyOr (a : Int) (b : Nat) : Int :=
  if 0 ≤ a then ((a.toNat ||| b : Nat) : Int)
  else
    let x := (-a - 1).toNat;
    -(((x - (x &&& b) : Nat) : Int)) - 1

/-- `SipHash.__add_size_byte`: append the byte holding the size of the
message to be hashed. -/
def addSizeByte (msg : Int) : Int :=
  let sizeBits0 := sizeBits msg
  let sizeBytes := (sizeBits0 + 7) >>> 3
  let sizeWords := (sizeBytes + 8) >>> 3
  let sizeBytes1 := sizeBytes &&& 0xFF
  let sizeWords1 := sizeWords <<< 6
  pyOr msg (sizeBytes1 <<< (sizeWords1 - 8))

/-- The four internal state variables `v0..v3` of the siphash algorithm. -/
structure SipState where
  v0 : Nat
  v1 : Nat
  v2 : Nat
  v3 : Nat
deriving DecidableEq, Repr

/-- `SipHash.__half_sipround(s, t)` (the source mutates `var` in place;
the final values are reproduced, including the `v0`/`v2` swap). -/
def halfSipround (s t : Nat) (st : SipState) : SipState :=
  let a := (splitN (st.v0 + st.v1)).1
  let c := (splitN (st.v2 + st.v3)).1
  let b := circularShift st.v1 s ^^^ a
  let d := circularShift st.v3 t ^^^ c
  ⟨c, b, circularShift a 32, d⟩

/-- `SipHash.__double_sipround`: two siprounds, i.e. four half rounds. -/
def doubleSipround (st : SipState) : SipState :=
  halfSipround 17 21 (halfSipround 13 16 (halfSipround 17 21 (halfSipround 13 16 st)))

/-- `SipHash.__compress_word`. -/
def compressWord (word : Nat) (st : SipState) : SipState :=
  let st1 := doubleSipround { st with v3 := st.v3 ^^^ word }
  { st1 with v0 := st1.v0 ^^^ word }

/-- `SipHash.__initialization`: XOR the two key halves with the four
ASCII constants. -/
def sipInit (secretKey : Nat) : SipState :=
  let k0 := secretKey &&& ((1 <<< 64) - 1)
  let k1 := secretKey >>> 64
  ⟨k0 ^^^ 0x736F6D6570736575, k1 ^^^ 0x646F72616E646F6D,
   k0 ^^^ 0x6C7967656E657261, k1 ^^^ 0x7465646279746573⟩

/-- Python `x & ((1 << 64) - 1)` on an arbitrary integer: the
non-negative remainder modulo `2^64`. -/
def lower64 (z : Int) : Nat :=
  (z % ((2 : Int) ^ 64)).toNat

/-- Python `x >> 64` on an arbitrary integer: floor division. -/
def upper64 (z : Int) : Int :=
  Int.fdiv z ((2 : Int) ^ 64)

/-- The `while upper:` loop inside `SipHash.__compression`, with fuel.
`none` means the loop did not finish within `fuel` iterations. -/
def compressRest (fuel : Nat) (upper : Int) (st : SipState) : Option SipState :=
  match fuel with
  | 0 => if upper = 0 then some st else none
  | f + 1 =>
    if upper = 0 then some st
    else compressRest f (upper64 upper) (compressWord (lower64 upper) st)

/-- `SipHash.__compression`: tag the message with its size byte, then
compress it 64-bit word by 64-bit word. -/
def compression (fuel : Nat) (msg : Int) (st : SipState) : Option SipState :=
  let updated := addSizeByte msg
  compressRest fuel (upper64 updated) (compressWord (lower64 updated) st)

/-- `SipHash.__finalization`. -/
def finalization (st : SipState) : SipState :=
  doubleSipround (doubleSipround { st with v2 := st.v2 ^^^ 0xFF })

/-- `SipHash.__siphash_main`: compression, finalization, XOR of the four
state variables, and the optional signed remapping of the top bit. -/
def siphashMain (fuel : Nat) (secretKey : Nat) (allowNegative : Bool) (msg : Int) :
    Option Int :=
  (compression fuel msg (sipInit secretKey)).map fun st =>
    let stF := finalization st
    let hv := stF.v0 ^^^ stF.v1 ^^^ stF.v2 ^^^ stF.v3
    if hv &&& (1 <<< 63) ≠ 0 ∧ allowNegative = false then negate hv else (hv : Int)

/-- The three kinds of Python value `SipHash.get_hash` distinguishes:
strings, integers, and everything else (hashed through the `id()`
surrogate, a process-lifetime non-negative machine address). -/
inductive PyObj where
  | int (n : Int)
  | str (s : String)
  | other (idSurrogate : Nat)
deriving DecidableEq, Repr

/-- `SipHash.get_hash`. -/
def getHash (fuel : Nat) (secretKey : Nat) (allowNegative : Bool) (x : PyObj) :
    Option Int :=
  match x with
  | .str s => siphashMain fuel secretKey allowNegative ((str2int s : Nat) : Int)
  | .int n => siphashMain fuel secretKey allowNegative n
  | .other i => siphashMain fuel secretKey allowNegative ((i : Nat) : Int)

/-- The raw (unsigned, `allow_negative=True`) 64-bit siphash value, as used
by `HashTableEntry.__get_hash`.  Fueled; `none` on fuel exhaustion. -/
def sipRaw (fuel : Nat) (secretKey : Nat) (msg : Int) : Option Nat :=
  (compression fuel msg (sipInit secretKey)).map fun st =>
    let stF := finalization st
    stF.v0 ^^^ stF.v1 ^^^ stF.v2 ^^^ stF.v3

/-- Total hash function for non-negative integer keys under secret key
`secretKey`: fuel `n + 2` always suffices for the message `n` (the message
has at most `n + 1` compression words), so the `getD` default is never
taken on any input. -/
def hashInt (secretKey : Nat) (n : Nat) : Nat :=
  (sipRaw (n + 2) secretKey (n : Int)).getD 0

/-! ## hashtable.py

Entries (`HashTableEntry`) are in one of the three states reported by the
source's `__state` property: empty (`key is None`, hash `None`), filled,
or dummy.  `set_dummy` is only ever called on filled slots and nothing
ever reads the key/value/hash of a dummy slot again (only its state), so
the dummy state needs no fields.  A filled slot stores the key, the value
(`Option β`, where `none` is Python's `None`) and the hash computed by
`HashTableEntry.__get_hash` at creation time. -/

/-- The three `__state`s of a `HashTableEntry`. -/
inductive Entry (α β : Type) where
  | empty : Entry α β
  | filled (key : α) (value : Option β) (hash : Nat) : Entry α β
  | dummy : Entry α β
deriving DecidableEq, Repr

/-- `HashTableEntry.is_dummy`. -/
def Entry.isDummy {α β : Type} : Entry α β → Bool
  | .dummy => true
  | _ => false

/-- `HashTableEntry.is_filled`. -/
def Entry.isFilled {α β : Type} : Entry α β → Bool
  | .filled _ _ _ => true
  | _ => false

/-- The three recognized `collision_resolution` techniques. -/
inductive Strategy where
  | simple
  | modified
  | pythonic
deriving DecidableEq, Repr

/-- The mutable state of a `HashTable`:
`__size`, `__used`, `__update_used`, the chosen collision resolution
technique, and `__internal_list`.  The unused `__hash_key` attribute
(stored by `__init__` but never read: hashing goes through the class-level
hasher) and the diagnostic `collision_counter` are not modelled. -/
structure HashTable (α β : Type) where
  size : Nat
  used : Nat
  updateUsed : Bool
  strategy : Strategy
  internalList : List (Entry α β)
deriving DecidableEq, Repr

namespace HashTable

variable {α β : Type} [DecidableEq α]

/-- `__simple_linear_probing` / `__modified_linear_probing` /
`__pythonic_linear_probing`: `(new index, new hash value)`. -/
def nextProbe (strat : Strategy) (size prevIndex hashValue : Nat) : Nat × Nat :=
  match strat with
  | .simple => ((prevIndex + 1) &&& (size - 1), hashValue)
  | .modified => ((5 * prevIndex + 1) &&& (size - 1), hashValue)
  | .pythonic => ((5 * prevIndex + 1 + hashValue) &&& (size - 1), hashValue >>> 5)

/-- The probe loop of `__lookup_key`, with fuel.  `kh` is the hash of the
probed key (the hash of the fresh `HashTableEntry(key=key)`), `index` and
`hashValue` are the loop state.  The entry comparison `entry == slot` is
`__eq__`: hash comparison first, then key comparison. -/
def lookupAux (strat : Strategy) (size : Nat) (slots : List (Entry α β))
    (kh : Nat) (k : α) (skipDummy : Bool) :
    Nat → Nat → Nat → Option Nat
  | 0, _, _ => none
  | fuel + 1, index, hashValue =>
    match slots.getD index .empty with
    | .dummy =>
      if skipDummy then
        let p := nextProbe strat size index hashValue
        lookupAux strat size slots kh k skipDummy fuel p.1 p.2
      else some index
    | .filled k2 _ hv =>
      if hv = kh ∧ k2 = k then some index
      else
        let p := nextProbe strat size index hashValue
        lookupAux strat size slots kh k skipDummy fuel p.1 p.2
    | .empty => some index

/-- `__lookup_key(key, skip_dummy)`: start at `hash & (size - 1)` with the
key's hash as probe state. -/
def lookupKey (fuel : Nat) (h : α → Nat) (t : HashTable α β) (k : α)
    (skipDummy : Bool) : Option Nat :=
  lookupAux t.strategy t.size t.internalList (h k) k skipDummy fuel
    (h k &&& (t.size - 1)) (h k)

/-- The tail of `update` after the load-factor check: find the insertion
target without skipping dummies, bump `__used` when the target was not a
dummy and `__update_used` is set, and overwrite the slot with a fresh
filled entry (hash recomputed from the key). -/
def placeEntry (fuel : Nat) (h : α → Nat) (k : α) (v : Option β)
    (t : HashTable α β) : Option (HashTable α β) :=
  match lookupKey fuel h t k false with
  | none => none
  | some index =>
    let u := if (t.internalList.getD index .empty).isDummy = false ∧ t.updateUsed = true
      then t.used + 1 else t.used
    some { t with
            used := u
            internalList := t.internalList.set index (.filled k v (h k)) }

/-- The recursive operations of the table.  `update` may call
`__increment_size`, which replays every filled item through `update`
again, so the three of them are bundled into one fuel-indexed interpreter
(`fuel` bounds the total nesting depth; `none` means fuel ran out, every
actually-occurring execution is reproduced by a large enough fuel). -/
inductive Op (α β : Type) where
  | upd (k : α) (v : Option β)
  | resize
  | replay (items : List (α × Option β))

/-- `__get_items` restricted to keys and values, i.e. the pair list
underlying `items()`: filled slots in slot order. -/
def itemsOfSlots {α β : Type} : List (Entry α β) → List (α × Option β)
  | [] => []
  | .filled k v _ :: rest => (k, v) :: itemsOfSlots rest
  | _ :: rest => itemsOfSlots rest

/-- `items()`. -/
def items (t : HashTable α β) : List (α × Option β) :=
  itemsOfSlots t.internalList

/-- One interpreter for `update` (`Op.upd`), `__increment_size`
(`Op.resize`) and its replay loop `for key, value in items: self.update`
(`Op.replay`).  Mirrors the source:
* `upd`: if `(used + 1) / size > load_factor` (with the class constant
  `load_factor = 1`, exactly `used + 1 > size`), resize first; then place
  the entry through the non-dummy-skipping lookup.
* `resize`: clear `__update_used`, double `__size`, snapshot `items()`,
  reinstall a fresh all-empty internal list, replay the items through
  `update`, and set `__update_used` back to `True`. -/
def runOp (h : α → Nat) (lookupFuel : Nat) :
    Nat → Op α β → HashTable α β → Option (HashTable α β)
  | 0, _, _ => none
  | fuel + 1, .upd k v, t =>
    match (if t.used + 1 > t.size then runOp h lookupFuel fuel .resize t else some t) with
    | none => none
    | some t1 => placeEntry lookupFuel h k v t1
  | fuel + 1, .resize, t =>
    let t1 : HashTable α β :=
      { t with
          updateUsed := false
          size := t.size * 2
          internalList := List.replicate (t.size * 2) .empty }
    match runOp h lookupFuel fuel (.replay (items t)) t1 with
    | none => none
    | some t2 => some { t2 with updateUsed := true }
  | _ + 1, .replay [], t => some t
  | fuel + 1, .replay ((k, v) :: rest), t =>
    match runOp h lookupFuel fuel (.upd k v) t with
    | none => none
    | some t1 => runOp h lookupFuel fuel (.replay rest) t1

/-- `update(key, value)`. -/
def update (fuel lookupFuel : Nat) (h : α → Nat) (k : α) (v : Option β)
    (t : HashTable α β) : Option (HashTable α β) :=
  runOp h lookupFuel fuel (.upd k v) t

/-- `__increment_size`. -/
def incrementSize (fuel lookupFuel : Nat) (h : α → Nat) (t : HashTable α β) :
    Option (HashTable α β) :=
  runOp h lookupFuel fuel .resize t

/-- `get(key)`: the value of the found slot if it is filled, else Python's
`None` (the absent-key sentinel), which is `none` here. -/
def get (fuel : Nat) (h : α → Nat) (t : HashTable α β) (k : α) :
    Option (Option β) :=
  (lookupKey fuel h t k true).map fun index =>
    match t.internalList.getD index .empty with
    | .filled _ v _ => v
    | _ => none

/-- `remove(key)`: `set_dummy` on the found slot when it is filled,
otherwise no state change. -/
def remove (fuel : Nat) (h : α → Nat) (t : HashTable α β) (k : α) :
    Option (HashTable α β) :=
  (lookupKey fuel h t k true).map fun index =>
    if (t.internalList.getD index .empty).isFilled = true then
      { t with internalList := t.internalList.set index .dummy }
    else t

/-- The table constructed by `__init__`: `__size = 8`, `__used = 0`,
`__update_used = True`, all-empty internal list. -/
def fresh (strat : Strategy) : HashTable α β :=
  ⟨8, 0, true, strat, List.replicate 8 .empty⟩

/-- `HashTable.__init__` with an explicit `collision_resolution` string:
the `assert collision_resolution in ['simple', 'modified', 'pythonic']`
makes any other value a construction-time failure (`none`), producing no
table. -/
def init (collisionResolution : String) : Option (HashTable α β) :=
  if collisionResolution = "simple" then some (fresh .simple)
  else if collisionResolution = "modified" then some (fresh .modified)
  else if collisionResolution = "pythonic" then some (fresh .pythonic)
  else none

end HashTable

/-! ## Concrete executions

A concrete hash function realizable by the program: the table's class-level
hasher with secret key `0` (CPython's `_Py_HashSecret` is all zeroes when
`PYTHONHASHSEED=0`), over non-negative integer keys.  Under it the integer
keys `1` and `3` collide modulo 8: both probe sequences start at slot 0 of
a fresh table. -/
def cexHash : Nat → Nat := hashInt 0

/-- Trace: `update(1, 100); update(3, 7); remove(1); update(3, 42)` on a
fresh default (`simple`) table.  `remove(1)` leaves a tombstone at slot 0,
which `update(3, 42)` then reuses, so the table ends up with two filled
slots for key `3`: `(3, 42)` at slot 0 and the older `(3, 7)` at slot 1. -/
def cexBase : Option (HashTable Nat Int) :=
  (HashTable.update 2 32 cexHash 1 (some 100) (HashTable.fresh .simple)).bind
    (fun t => (HashTable.update 2 32 cexHash 3 (some 7) t).bind
      (fun t1 => (HashTable.remove 32 cexHash t1 1).bind
        (fun t2 => HashTable.update 2 32 cexHash 3 (some 42) t2)))

/-- `cexBase` continued with `update(k, k)` for `k = 0, 2, 4, 5, 6, 7`:
six further distinct keys fill the remaining empty slots, so all 8 slots
are filled (two of them by key `3`) and `__used = 8`. -/
def cexFull : Option (HashTable Nat Int) :=
  cexBase.bind (fun t => (HashTable.update 2 32 cexHash 0 (some 0) t).bind
    (fun t1 => (HashTable.update 2 32 cexHash 2 (some 2) t1).bind
      (fun t2 => (HashTable.update 2 32 cexHash 4 (some 4) t2).bind
        (fun t3 => (HashTable.update 2 32 cexHash 5 (some 5) t3).bind
          (fun t4 => (HashTable.update 2 32 cexHash 6 (some 6) t4).bind
            (fun t5 => HashTable.update 2 32 cexHash 7 (some 77) t5))))))

/-! ## Derived notions used by the statements -/

namespace HashTable

variable {α β : Type} [DecidableEq α]

/-- The probe sequence of a key with hash `kh`: pair `(index, hashValue)`
after `n` probe steps, starting from `(kh & (size-1), kh)` as in
`__lookup_key`. -/
def probeSeq (strat : Strategy) (size kh : Nat) : Nat → Nat × Nat
  | 0 => (kh &&& (size - 1), kh)
  | n + 1 =>
    let p := probeSeq strat size kh n
    nextProbe strat size p.1 p.2

/-- Whether the probe loop of `__lookup_key` terminates at slot `pos`:
an empty slot always stops it, a dummy slot stops it exactly when dummies
are not skipped, and a filled slot stops it exactly when hash and key
match. -/
def stopB (slots : List (Entry α β)) (kh : Nat) (k : α) (skipDummy : Bool)
    (pos : Nat) : Bool :=
  match slots.getD pos .empty with
  | .empty => true
  | .dummy => !skipDummy
  | .filled k2 _ hv => decide (hv = kh ∧ k2 = k)

/-- Slot `pos` lets a tombstone-skipping lookup for key `k` walk past it:
it is occupied (filled or dummy) and, if filled, holds a different key. -/
def blockB (slots : List (Entry α β)) (k : α) (pos : Nat) : Bool :=
  match slots.getD pos .empty with
  | .empty => false
  | .dummy => true
  | .filled k2 _ _ => decide (k2 ≠ k)

/-- Key `k` is present with value `v` and reachable by its probe chain:
some chain position holds the freshly-hashed filled entry `(k, v)` and
every earlier chain position is occupied by a tombstone or another key. -/
def GoodAt (h : α → Nat) (t : HashTable α β) (k : α) (v : Option β) : Prop :=
  ∃ j, t.internalList.getD (probeSeq t.strategy t.size (h k) j).1 .empty
        = .filled k v (h k)
    ∧ ∀ i < j, blockB t.internalList k (probeSeq t.strategy t.size (h k) i).1 = true

/-- Every filled slot stores the hash of its own key (the source computes
a fresh `HashTableEntry(key=key)` at every insertion, so this is the
invariant of `__get_hash`). -/
def HashOk (h : α → Nat) (t : HashTable α β) : Prop :=
  ∀ e ∈ t.internalList, ∀ k v hv, e = Entry.filled k v hv → hv = h k

/-- Structural well-formedness: the internal list has `__size` slots,
`__size` is a power of two, and filled slots store their keys' hashes. -/
def WFcore (h : α → Nat) (t : HashTable α β) : Prop :=
  t.internalList.length = t.size ∧ (∃ m, t.size = 2 ^ m) ∧ HashOk h t

/-- Invariant of every table reachable by the public operations:
well-formed, load within bounds, and `__update_used = True` (the flag is
only cleared transiently inside `__increment_size`). -/
def WF (h : α → Nat) (t : HashTable α β) : Prop :=
  WFcore h t ∧ t.used ≤ t.size ∧ t.updateUsed = true

/-- No slot of the table holds a filled entry with key `k`. -/
def NoKey (t : HashTable α β) (k : α) : Prop :=
  ∀ e ∈ t.internalList, ∀ v hv, e ≠ Entry.filled k v hv

/-- No slot of the table is a tombstone. -/
def NoDummy (t : HashTable α β) : Prop :=
  ∀ e ∈ t.internalList, e ≠ Entry.dummy

/-- Reachability by the mutating public operations (`get` computes a
lookup but leaves the table unchanged, so it does not appear). -/
inductive Reach (h : α → Nat) : HashTable α β → HashTable α β → Prop
  | refl (t : HashTable α β) : Reach h t t
  | update {s t t' : HashTable α β} (fuel lookupFuel : Nat) (k : α) (v : Option β) :
      Reach h s t → HashTable.update fuel lookupFuel h k v t = some t' → Reach h s t'
  | remove {s t t' : HashTable α β} (fuel : Nat) (k : α) :
      Reach h s t → HashTable.remove fuel h t k = some t' → Reach h s t'

/-- One operation that claim C1's persistence window allows between the
`update(k, v)` being tracked and the later `get(k)`: a removal of a
different key, or a non-resizing update of a different key. -/
inductive PersistStep (h : α → Nat) (k : α) : HashTable α β → HashTable α β → Prop
  | remove {t t' : HashTable α β} (k2 : α) (fuel : Nat) :
      k2 ≠ k → HashTable.remove fuel h t k2 = some t' → PersistStep h k t t'
  | update {t t' : HashTable α β} (k2 : α) (v2 : Option β) (fuel lookupFuel : Nat) :
      k2 ≠ k → t.used + 1 ≤ t.size →
      HashTable.update fuel lookupFuel h k2 v2 t = some t' → PersistStep h k t t'

/-- Any number of `PersistStep`s. -/
def Persists (h : α → Nat) (k : α) : HashTable α β → HashTable α β → Prop :=
  Relation.ReflTransGen (PersistStep h k)

end HashTable

/-- The length-tagging arithmetic of `__add_size_byte` for a non-negative
message, with the byte-length written at the top byte of the final
8-byte-aligned block: shift `64*W - 8` where `W = (L' + 8) >> 3` words,
`L'` the byte length, `L = L' mod 256` the stored byte. -/
def sizeTagSpec (m : Nat) : Nat :=
  let bitLen := pyBitLen m
  let byteLen := (bitLen + 7) >>> 3
  let words := (byteLen + 8) >>> 3
  m ||| ((byteLen % 256) <<< (64 * words - 8))

/-- The tagging formula in the words of the original claim: shift
`8*W - 8` with `W = (L' + 8) >> 3` words. -/
def sizeTagClaimed (m : Nat) : Nat :=
  let bitLen := pyBitLen m
  let byteLen := (bitLen + 7) >>> 3
  let words := (byteLen + 8) >>> 3
  m ||| ((byteLen % 256) <<< (8 * words - 8))

/-! ## Helper lemmas: list access -/

namespace HashTable

variable {α β : Type} [DecidableEq α]

theorem getD_set_self {γ : Type} (l : List γ) (p : Nat) (e d : γ)
    (hp : p < l.length) : (l.set p e).getD p d = e := by
  rw [List.getD_eq_getElem _ _ (by simpa using hp)]
  exact List.getElem_set_self _

theorem getD_set_ne {γ : Type} (l : List γ) (p q : Nat) (e d : γ)
    (hpq : p ≠ q) : (l.set p e).getD q d = l.getD q d := by
  by_cases hq : q < l.length
  · rw [List.getD_eq_getElem _ _ (by simpa using hq), List.getD_eq_getElem _ _ hq]
    exact List.getElem_set_ne hpq _
  · rw [List.getD_eq_default _ _ (by simp; omega), List.getD_eq_default _ _ (by omega)]

theorem getD_mem {γ : Type} (l : List γ) (q : Nat) (d : γ) (hq : q < l.length) :
    l.getD q d ∈ l := by
  rw [List.getD_eq_getElem _ _ hq]
  exact List.getElem_mem _

theorem lt_length_of_getD_filled {slots : List (Entry α β)} {q : Nat}
    {k : α} {v : Option β} {hv : Nat}
    (hq : slots.getD q .empty = .filled k v hv) : q < slots.length := by
  by_contra hlen
  rw [List.getD_eq_default _ _ (by omega)] at hq
  exact Entry.noConfusion hq

theorem getD_filled_mem {slots : List (Entry α β)} {q : Nat}
    {k : α} {v : Option β} {hv : Nat}
    (hq : slots.getD q .empty = .filled k v hv) : Entry.filled k v hv ∈ slots := by
  have := getD_mem slots q .empty (lt_length_of_getD_filled hq)
  rwa [hq] at this

/-! ## Helper lemmas: the probe loop -/

theorem probeSeq_succ (strat : Strategy) (size kh n : Nat) :
    probeSeq strat size kh (n + 1) =
      nextProbe strat size (probeSeq strat size kh n).1 (probeSeq strat size kh n).2 := rfl

theorem nextProbe_fst_lt (strat : Strategy) {size : Nat} (m : Nat)
    (hsz : size = 2 ^ m) (i hv : Nat) : (nextProbe strat size i hv).1 < size := by
  subst hsz
  cases strat <;>
    simp only [nextProbe] <;>
    exact Nat.and_pow_two_sub_one_eq_mod _ m ▸ Nat.mod_lt _ (Nat.pos_pow_of_pos m (by omega))

theorem probeSeq_fst_lt (strat : Strategy) {size : Nat} (m : Nat)
    (hsz : size = 2 ^ m) (kh n : Nat) : (probeSeq strat size kh n).1 < size := by
  cases n with
  | zero =>
    subst hsz
    simpa only [probeSeq] using
      Nat.and_pow_two_sub_one_eq_mod kh m ▸ Nat.mod_lt _ (Nat.pos_pow_of_pos m (by omega))
  | succ n => exact probeSeq_succ _ _ _ _ ▸ nextProbe_fst_lt strat m hsz _ _

theorem lookupAux_stop {strat : Strategy} {size : Nat} {slots : List (Entry α β)}
    {kh : Nat} {k : α} {skip : Bool} {idx : Nat} (fuel hv : Nat)
    (hstop : stopB slots kh k skip idx = true) :
    lookupAux strat size slots kh k skip (fuel + 1) idx hv = some idx := by
  unfold stopB at hstop
  cases hsl : slots.getD idx .empty with
  | empty => simp only [lookupAux]; rw [hsl]
  | dummy =>
    rw [hsl] at hstop
    simp only [Bool.not_eq_true'] at hstop
    simp only [lookupAux]; rw [hsl]; simp [hstop]
  | filled k2 v2 hv2 =>
    rw [hsl] at hstop
    simp only [decide_eq_true_eq] at hstop
    simp only [lookupAux]; rw [hsl]; simp [hstop]

theorem lookupAux_advance {strat : Strategy} {size : Nat} {slots : List (Entry α β)}
    {kh : Nat} {k : α} {skip : Bool} {idx : Nat} (fuel hv : Nat)
    (hstop : stopB slots kh k skip idx = false) :
    lookupAux strat size slots kh k skip (fuel + 1) idx hv =
      lookupAux strat size slots kh k skip fuel
        (nextProbe strat size idx hv).1 (nextProbe strat size idx hv).2 := by
  unfold stopB at hstop
  cases hsl : slots.getD idx .empty with
  | empty => rw [hsl] at hstop; exact Bool.noConfusion hstop
  | dummy =>
    rw [hsl] at hstop
    simp only [Bool.not_eq_false'] at hstop
    conv => lhs; simp only [lookupAux]
    rw [hsl]; simp [hstop]
  | filled k2 v2 hv2 =>
    rw [hsl] at hstop
    simp only [decide_eq_false_iff_not] at hstop
    conv => lhs; simp only [lookupAux]
    rw [hsl]; simp [hstop]

theorem lookupAux_finds {strat : Strategy} {size : Nat} {slots : List (Entry α β)}
    {kh : Nat} {k : α} {skip : Bool} :
    ∀ (fuel n j : Nat), n ≤ j → j < n + fuel →
      stopB slots kh k skip (probeSeq strat size kh j).1 = true →
      (∀ i, n ≤ i → i < j → stopB slots kh k skip (probeSeq strat size kh i).1 = false) →
      lookupAux strat size slots kh k skip fuel (probeSeq strat size kh n).1
          (probeSeq strat size kh n).2 = some (probeSeq strat size kh j).1 := by
  intro fuel
  induction fuel with
  | zero => intro n j h1 h2; omega
  | succ fuel ih =>
    intro n j hnj hjf hstop hpre
    rcases Nat.eq_or_lt_of_le hnj with rfl | hlt
    · exact lookupAux_stop fuel _ hstop
    · rw [lookupAux_advance fuel _ (hpre n le_rfl hlt), ← probeSeq_succ]
      exact ih (n + 1) j hlt (by omega) hstop (fun i h1 h2 => hpre i (by omega) h2)

theorem lookupAux_sound {strat : Strategy} {size : Nat} {slots : List (Entry α β)}
    {kh : Nat} {k : α} {skip : Bool} :
    ∀ (fuel n idx : Nat),
      lookupAux strat size slots kh k skip fuel (probeSeq strat size kh n).1
          (probeSeq strat size kh n).2 = some idx →
      ∃ j, n ≤ j ∧ j < n + fuel ∧
        stopB slots kh k skip (probeSeq strat size kh j).1 = true ∧
        (∀ i, n ≤ i → i < j → stopB slots kh k skip (probeSeq strat size kh i).1 = false) ∧
        idx = (probeSeq strat size kh j).1 := by
  intro fuel
  induction fuel with
  | zero => intro n idx hl; exact Option.noConfusion hl
  | succ fuel ih =>
    intro n idx hl
    cases hstop : stopB slots kh k skip (probeSeq strat size kh n).1 with
    | true =>
      rw [lookupAux_stop fuel _ hstop] at hl
      exact ⟨n, le_rfl, by omega, hstop, fun i h1 h2 => by omega,
        (Option.some.injEq .. ▸ hl).symm⟩
    | false =>
      rw [lookupAux_advance fuel _ hstop, ← probeSeq_succ] at hl
      obtain ⟨j, hj1, hj2, hj3, hj4, hj5⟩ := ih (n + 1) idx hl
      refine ⟨j, by omega, by omega, hj3, ?_, hj5⟩
      intro i h1 h2
      rcases Nat.eq_or_lt_of_le h1 with rfl | h1'
      · exact hstop
      · exact hj4 i h1' h2

theorem lookupKey_finds {h : α → Nat} {t : HashTable α β} {k : α} {skip : Bool}
    {fuel j : Nat} (hj : j < fuel)
    (hstop : stopB t.internalList (h k) k skip
      (probeSeq t.strategy t.size (h k) j).1 = true)
    (hpre : ∀ i < j, stopB t.internalList (h k) k skip
      (probeSeq t.strategy t.size (h k) i).1 = false) :
    lookupKey fuel h t k skip = some (probeSeq t.strategy t.size (h k) j).1 := by
  unfold lookupKey
  have h0 : probeSeq t.strategy t.size (h k) 0 = (h k &&& (t.size - 1), h k) := rfl
  rw [show (h k &&& (t.size - 1)) = (probeSeq t.strategy t.size (h k) 0).1 from rfl,
    show (h k) = (probeSeq t.strategy t.size (h k) 0).2 from rfl]
  exact lookupAux_finds fuel 0 j (Nat.zero_le j) (by omega) hstop
    (fun i _ h2 => hpre i h2)

theorem lookupKey_sound {h : α → Nat} {t : HashTable α β} {k : α} {skip : Bool}
    {fuel idx : Nat} (hl : lookupKey fuel h t k skip = some idx) :
    ∃ j, j < fuel ∧
      stopB t.internalList (h k) k skip (probeSeq t.strategy t.size (h k) j).1 = true ∧
      (∀ i < j, stopB t.internalList (h k) k skip
        (probeSeq t.strategy t.size (h k) i).1 = false) ∧
      idx = (probeSeq t.strategy t.size (h k) j).1 := by
  unfold lookupKey at hl
  rw [show (h k &&& (t.size - 1)) = (probeSeq t.strategy t.size (h k) 0).1 from rfl,
    show (h k) = (probeSeq t.strategy t.size (h k) 0).2 from rfl] at hl
  obtain ⟨j, _, hj2, hj3, hj4, hj5⟩ := lookupAux_sound fuel 0 idx hl
  exact ⟨j, by omega, hj3, fun i h2 => hj4 i (Nat.zero_le i) h2, hj5⟩

/-! ## Helper lemmas: `GoodAt` -/

theorem stopB_pos_ne {slots : List (Entry α β)} {kh : Nat} {k : α} {skip : Bool}
    {p q : Nat} (hp : stopB slots kh k skip p = false)
    (hq : stopB slots kh k skip q = true) : p ≠ q := by
  intro he
  rw [he, hq] at hp
  exact Bool.noConfusion hp

theorem placeEntry_some {fuel : Nat} {h : α → Nat} {k : α} {v : Option β}
    {t t' : HashTable α β} (hp : placeEntry fuel h k v t = some t') :
    ∃ idx, lookupKey fuel h t k false = some idx ∧
      t' = { t with
              used := if (t.internalList.getD idx .empty).isDummy = false ∧
                  t.updateUsed = true then t.used + 1 else t.used
              internalList := t.internalList.set idx (.filled k v (h k)) } := by
  unfold placeEntry at hp
  cases hlk : lookupKey fuel h t k false with
  | none => rw [hlk] at hp; exact Option.noConfusion hp
  | some idx =>
    rw [hlk] at hp
    exact ⟨idx, rfl, (Option.some.injEq .. ▸ hp).symm⟩

theorem placeEntry_goodAt {fuel : Nat} {h : α → Nat} {k : α} {v : Option β}
    {t t' : HashTable α β}
    (hlen : t.internalList.length = t.size) (hpow : ∃ m, t.size = 2 ^ m)
    (hhash : HashOk h t) (hp : placeEntry fuel h k v t = some t') :
    GoodAt h t' k v := by
  obtain ⟨m, hm⟩ := hpow
  obtain ⟨idx, hlk, ht'⟩ := placeEntry_some hp
  obtain ⟨j, hjf, hstop, hpre, hidx⟩ := lookupKey_sound hlk
  refine ⟨j, ?_, ?_⟩
  · have hlt : (probeSeq t.strategy t.size (h k) j).1 < t.internalList.length := by
      rw [hlen]; exact probeSeq_fst_lt _ m hm _ _
    rw [ht']
    show (t.internalList.set idx (.filled k v (h k))).getD
      (probeSeq t.strategy t.size (h k) j).1 .empty = _
    rw [hidx]
    exact getD_set_self _ _ _ _ hlt
  · intro i hij
    have hsf := hpre i hij
    have hpne : (probeSeq t.strategy t.size (h k) i).1 ≠ idx := by
      rw [hidx]; exact stopB_pos_ne hsf hstop
    rw [ht']
    show blockB (t.internalList.set idx (.filled k v (h k))) k
      (probeSeq t.strategy t.size (h k) i).1 = true
    unfold blockB
    rw [getD_set_ne _ _ _ _ _ (Ne.symm hpne)]
    unfold stopB at hsf
    cases hsl : t.internalList.getD (probeSeq t.strategy t.size (h k) i).1 .empty with
    | empty => rw [hsl] at hsf; exact Bool.noConfusion hsf
    | dummy => rfl
    | filled k2 v2 hv2 =>
      rw [hsl] at hsf
      simp only [decide_eq_false_iff_not] at hsf
      simp only [decide_eq_true_eq]
      intro hk2
      exact hsf ⟨by rw [hhash _ (getD_filled_mem hsl) k2 v2 hv2 rfl, hk2], hk2⟩

theorem goodAt_set {h : α → Nat} {t : HashTable α β} {k : α} {v : Option β}
    {p : Nat} {e : Entry α β} {u2 : Nat} {fl2 : Bool}
    (hg : GoodAt h t k v)
    (hne : t.internalList.getD p .empty ≠ .filled k v (h k))
    (he : e = .dummy ∨ ∃ k2 v2 hv2, e = .filled k2 v2 hv2 ∧ k2 ≠ k) :
    GoodAt h { t with
                used := u2
                updateUsed := fl2
                internalList := t.internalList.set p e } k v := by
  obtain ⟨j, hgood, hpre⟩ := hg
  have hpj : p ≠ (probeSeq t.strategy t.size (h k) j).1 := by
    intro hp
    rw [hp, hgood] at hne
    exact hne rfl
  refine ⟨j, ?_, ?_⟩
  · show (t.internalList.set p e).getD (probeSeq t.strategy t.size (h k) j).1 .empty = _
    rw [getD_set_ne _ _ _ _ _ hpj]
    exact hgood
  · intro i hij
    show blockB (t.internalList.set p e) k (probeSeq t.strategy t.size (h k) i).1 = true
    by_cases hpi : p = (probeSeq t.strategy t.size (h k) i).1
    · by_cases hpl : p < t.internalList.length
      · unfold blockB
        rw [← hpi, getD_set_self _ _ _ _ hpl]
        rcases he with rfl | ⟨k2, v2, hv2, rfl, hk2⟩
        · rfl
        · simp [hk2]
      · rw [List.set_eq_of_length_le (by omega)]
        exact hpre i hij
    · unfold blockB
      rw [getD_set_ne _ _ _ _ _ hpi]
      exact hpre i hij

theorem remove_some {fuel : Nat} {h : α → Nat} {t t' : HashTable α β} {k : α}
    (hr : remove fuel h t k = some t') :
    ∃ idx, lookupKey fuel h t k true = some idx ∧
      t' = (if (t.internalList.getD idx .empty).isFilled = true then
        { t with internalList := t.internalList.set idx .dummy } else t) := by
  unfold remove at hr
  cases hlk : lookupKey fuel h t k true with
  | none => rw [hlk] at hr; exact Option.noConfusion hr
  | some idx =>
    rw [hlk] at hr
    exact ⟨idx, rfl, (Option.some.injEq .. ▸ hr).symm⟩

theorem remove_goodAt {fuel : Nat} {h : α → Nat} {t t' : HashTable α β}
    {k k2 : α} {v : Option β} (hk : k2 ≠ k)
    (hr : remove fuel h t k2 = some t') (hg : GoodAt h t k v) :
    GoodAt h t' k v := by
  obtain ⟨idx, hlk, ht'⟩ := remove_some hr
  obtain ⟨j, hjf, hstop, hpre, hidx⟩ := lookupKey_sound hlk
  cases hsl : t.internalList.getD idx .empty with
  | empty => rw [ht', hsl]; exact hg
  | dummy => rw [ht', hsl]; exact hg
  | filled k3 v3 hv3 =>
    have hk3 : k3 = k2 := by
      unfold stopB at hstop
      rw [hidx] at hsl
      rw [hsl] at hstop
      simp only [decide_eq_true_eq] at hstop
      exact hstop.2
    rw [ht', hsl]
    simp only [Entry.isFilled, if_pos]
    exact goodAt_set hg (by rw [hsl]; intro hcon; exact hk (hk3 ▸ (Entry.filled.injEq .. ▸ hcon).1))
      (Or.inl rfl)

theorem update_eq_place {fuel lf : Nat} {h : α → Nat} {k : α} {v : Option β}
    {t : HashTable α β} (hnt : ¬ t.used + 1 > t.size) :
    update (fuel + 1) lf h k v t = placeEntry lf h k v t := by
  unfold update runOp
  simp [hnt]

theorem update_noresize_goodAt {fuel lf : Nat} {h : α → Nat}
    {t t' : HashTable α β} {k k2 : α} {v v2 : Option β} (hk : k2 ≠ k)
    (hnt : t.used + 1 ≤ t.size)
    (hu : update fuel lf h k2 v2 t = some t') (hg : GoodAt h t k v) :
    GoodAt h t' k v := by
  cases fuel with
  | zero => exact Option.noConfusion hu
  | succ fuel =>
    rw [update_eq_place (by omega)] at hu
    obtain ⟨idx, hlk, ht'⟩ := placeEntry_some hu
    obtain ⟨j, hjf, hstop, hpre, hidx⟩ := lookupKey_sound hlk
    have hne : t.internalList.getD idx .empty ≠ .filled k v (h k) := by
      unfold stopB at hstop
      rw [hidx] at *
      cases hsl : t.internalList.getD (probeSeq t.strategy t.size (h k2) j).1 .empty with
      | empty => intro hcon; exact Entry.noConfusion hcon
      | dummy => intro hcon; exact Entry.noConfusion hcon
      | filled k3 v3 hv3 =>
        rw [hsl] at hstop
        simp only [decide_eq_true_eq] at hstop
        intro hcon
        exact hk (hstop.2 ▸ (Entry.filled.injEq .. ▸ hcon).1)
    rw [ht']
    exact goodAt_set hg hne (Or.inr ⟨k2, v2, h k2, rfl, hk⟩)

theorem goodAt_get {h : α → Nat} {t : HashTable α β} {k : α} {v : Option β}
    (hg : GoodAt h t k v) :
    (∀ F r, get F h t k = some r → r = v) ∧ (∃ F, get F h t k = some v) := by
  obtain ⟨j, hgood, hpre⟩ := hg
  have hstop : stopB t.internalList (h k) k true
      (probeSeq t.strategy t.size (h k) j).1 = true := by
    unfold stopB
    rw [hgood]
    simp
  have hprestop : ∀ i < j, stopB t.internalList (h k) k true
      (probeSeq t.strategy t.size (h k) i).1 = false := by
    intro i hij
    have hb := hpre i hij
    unfold blockB at hb
    unfold stopB
    cases hsl : t.internalList.getD (probeSeq t.strategy t.size (h k) i).1 .empty with
    | empty => rw [hsl] at hb; exact Bool.noConfusion hb
    | dummy => rfl
    | filled k2 v2 hv2 =>
      rw [hsl] at hb
      simp only [decide_eq_true_eq] at hb
      simp [hb]
  constructor
  · intro F r hget
    unfold get at hget
    obtain ⟨idx, hlk, hrv⟩ := Option.map_eq_some'.mp hget
    obtain ⟨j2, hj2f, hstop2, hpre2, hidx⟩ := lookupKey_sound hlk
    have hj2 : j2 = j := by
      rcases Nat.lt_trichotomy j2 j with hlt | heq | hgt
      · rw [hprestop j2 hlt] at hstop2; exact Bool.noConfusion hstop2
      · exact heq
      · rw [hpre2 j hgt] at hstop; exact Bool.noConfusion hstop
    rw [← hrv, hidx, hj2, hgood]
  · refine ⟨j + 1, ?_⟩
    unfold get
    rw [lookupKey_finds (Nat.lt_succ_self j) hstop hprestop]
    simp only [Option.map_some']
    rw [hgood]

/-! ## Helper lemmas: the `runOp` interpreter and the `WF` invariant -/

theorem update_eq_resize {f w : Nat} {h : α → Nat} {k : α} {v : Option β}
    {t : HashTable α β} (ht : t.used + 1 > t.size) :
    update (f + 1) w h k v t =
      match runOp h w f .resize t with
      | none => none
      | some t1 => placeEntry w h k v t1 := by
  unfold update
  conv => lhs; simp only [runOp]
  simp [ht]

theorem resize_eq {fuel lf : Nat} {h : α → Nat} {t : HashTable α β} :
    runOp h lf (fuel + 1) (.resize : Op α β) t =
      match runOp h lf fuel (.replay (items t))
        { t with
            updateUsed := false
            size := t.size * 2
            internalList := List.replicate (t.size * 2) .empty } with
      | none => none
      | some t2 => some { t2 with updateUsed := true } := rfl

theorem replay_nil_eq {fuel lf : Nat} {h : α → Nat} {t : HashTable α β} :
    runOp h lf (fuel + 1) (.replay []) t = some t := rfl

theorem replay_cons_eq {fuel lf : Nat} {h : α → Nat} {t : HashTable α β}
    {k : α} {v : Option β} {rest : List (α × Option β)} :
    runOp h lf (fuel + 1) (.replay ((k, v) :: rest)) t =
      match runOp h lf fuel (.upd k v) t with
      | none => none
      | some t1 => runOp h lf fuel (.replay rest) t1 := rfl

theorem placeEntry_fields {fuel : Nat} {h : α → Nat} {k : α} {v : Option β}
    {t t' : HashTable α β} (hp : placeEntry fuel h k v t = some t') :
    t'.size = t.size ∧ t'.strategy = t.strategy ∧ t'.updateUsed = t.updateUsed ∧
    t'.internalList.length = t.internalList.length ∧
    (HashOk h t → HashOk h t') ∧
    (t.updateUsed = false → t'.used = t.used) ∧
    t.used ≤ t'.used ∧ t'.used ≤ t.used + 1 := by
  obtain ⟨idx, _, ht'⟩ := placeEntry_some hp
  subst ht'
  refine ⟨rfl, rfl, rfl, List.length_set .., ?_, ?_, ?_, ?_⟩
  · intro hh e he k2 v2 hv2 hef
    rcases List.mem_or_eq_of_mem_set he with h1 | rfl
    · exact hh e h1 k2 v2 hv2 hef
    · obtain ⟨hk2, _, hhv⟩ := Entry.filled.injEq .. ▸ hef
      rw [← hhv, hk2]
  · intro hfl
    simp [hfl]
  · dsimp only
    split <;> omega
  · dsimp only
    split <;> omega

theorem replay_core {lf : Nat} {h : α → Nat} :
    ∀ (fuel : Nat) (its : List (α × Option β)) (t t' : HashTable α β),
      t.updateUsed = false → t.used + 1 ≤ t.size →
      t.internalList.length = t.size → HashOk h t →
      runOp h lf fuel (.replay its) t = some t' →
      t'.updateUsed = false ∧ t'.used = t.used ∧ t'.size = t.size ∧
      t'.strategy = t.strategy ∧ t'.internalList.length = t'.size ∧ HashOk h t' := by
  intro fuel
  induction fuel with
  | zero => intro its t t' _ _ _ _ hr; exact Option.noConfusion hr
  | succ fuel ih =>
    intro its t t' hfl hu hlen hh hr
    cases its with
    | nil =>
      rw [replay_nil_eq] at hr
      cases hr
      exact ⟨hfl, rfl, rfl, rfl, hlen, hh⟩
    | cons kv rest =>
      obtain ⟨k, v⟩ := kv
      rw [replay_cons_eq] at hr
      cases hupd : runOp h lf fuel (.upd k v) t with
      | none => rw [hupd] at hr; exact Option.noConfusion hr
      | some t1 =>
        rw [hupd] at hr
        cases fuel with
        | zero => exact Option.noConfusion hupd
        | succ fuel2 =>
          have hplace : placeEntry lf h k v t = some t1 := by
            rw [show runOp h lf (fuel2 + 1) (.upd k v) t
                = update (fuel2 + 1) lf h k v t from rfl,
              update_eq_place (by omega)] at hupd
            exact hupd
          obtain ⟨hsz, hst, hflag, hlen1, hho, hused, _, _⟩ := placeEntry_fields hplace
          have hrest := ih rest t1 t' (hflag ▸ hfl)
            (by rw [hused hfl, hsz]; exact hu)
            (by rw [hlen1, hsz, hlen]) (hho hh) hr
          refine ⟨hrest.1, ?_, by rw [hrest.2.2.1, hsz], by rw [hrest.2.2.2.1, hst],
            hrest.2.2.2.2.1, hrest.2.2.2.2.2⟩
          rw [hrest.2.1, hused hfl]

theorem resize_core {fuel lf : Nat} {h : α → Nat} {t t' : HashTable α β}
    (hused : t.used ≤ t.size) (hpos : 0 < t.size)
    (hlen : t.internalList.length = t.size) (hhash : HashOk h t)
    (hr : runOp h lf fuel (.resize : Op α β) t = some t') :
    t'.updateUsed = true ∧ t'.used = t.used ∧ t'.size = 2 * t.size ∧
    t'.strategy = t.strategy ∧ t'.internalList.length = t'.size ∧ HashOk h t' := by
  cases fuel with
  | zero => exact Option.noConfusion hr
  | succ fuel =>
    rw [resize_eq] at hr
    set t1 : HashTable α β :=
      { t with
          updateUsed := false
          size := t.size * 2
          internalList := List.replicate (t.size * 2) .empty } with ht1
    cases hrep : runOp h lf fuel (.replay (items t)) t1 with
    | none => rw [hrep] at hr; exact Option.noConfusion hr
    | some t2 =>
      rw [hrep] at hr
      cases hr
      have hcore := replay_core fuel (items t) t1 t2 rfl (by dsimp only; omega)
        (by dsimp only; exact List.length_replicate ..)
        (by
          intro e he k2 v2 hv2 hef
          rw [List.eq_of_mem_replicate he] at hef
          exact Entry.noConfusion hef)
        hrep
      refine ⟨rfl, ?_, ?_, ?_, ?_, ?_⟩
      · show t2.used = t.used
        rw [hcore.2.1]
      · show t2.size = 2 * t.size
        rw [hcore.2.2.1]; dsimp only; omega
      · show t2.strategy = t.strategy
        rw [hcore.2.2.2.1]
      · show t2.internalList.length = t2.size
        exact hcore.2.2.2.2.1
      · exact hcore.2.2.2.2.2

theorem update_WF {fuel lf : Nat} {h : α → Nat} {k : α} {v : Option β}
    {t t' : HashTable α β} (hwf : WF h t)
    (hu : update fuel lf h k v t = some t') : WF h t' := by
  obtain ⟨⟨hlen, ⟨m, hm⟩, hhash⟩, hused, hflag⟩ := hwf
  cases fuel with
  | zero => exact Option.noConfusion hu
  | succ fuel =>
    by_cases ht : t.used + 1 > t.size
    · rw [update_eq_resize ht] at hu
      cases hres : runOp h lf fuel (.resize : Op α β) t with
      | none => rw [hres] at hu; exact Option.noConfusion hu
      | some t1 =>
        rw [hres] at hu
        have hpos : 0 < t.size := by rw [hm]; exact Nat.pos_pow_of_pos m (by omega)
        obtain ⟨hfl1, husd1, hsz1, hst1, hlen1, hh1⟩ :=
          resize_core hused hpos hlen hhash hres
        obtain ⟨hsz', hst', hfl', hlen', hho', _, hlow, hhigh⟩ := placeEntry_fields hu
        refine ⟨⟨by rw [hlen', hsz', hlen1], ⟨m + 1, by rw [hsz', hsz1, hm]; ring⟩,
          hho' hh1⟩, ?_, by rw [hfl', hfl1]⟩
        rw [hsz', hsz1]
        omega
    · rw [update_eq_place ht] at hu
      obtain ⟨hsz', hst', hfl', hlen', hho', _, hlow, hhigh⟩ := placeEntry_fields hu
      refine ⟨⟨by rw [hlen', hsz', hlen], ⟨m, by rw [hsz', hm]⟩, hho' hhash⟩, ?_,
        by rw [hfl', hflag]⟩
      rw [hsz']
      omega

theorem remove_WF {fuel : Nat} {h : α → Nat} {k : α} {t t' : HashTable α β}
    (hwf : WF h t) (hr : remove fuel h t k = some t') : WF h t' := by
  obtain ⟨⟨hlen, hpow, hhash⟩, hused, hflag⟩ := hwf
  obtain ⟨idx, _, ht'⟩ := remove_some hr
  subst ht'
  split
  · refine ⟨⟨by rw [List.length_set]; exact hlen, hpow, ?_⟩, hused, hflag⟩
    intro e he k2 v2 hv2 hef
    rcases List.mem_or_eq_of_mem_set he with h1 | rfl
    · exact hhash e h1 k2 v2 hv2 hef
    · exact Entry.noConfusion hef
  · exact ⟨⟨hlen, hpow, hhash⟩, hused, hflag⟩

theorem fresh_WF (h : α → Nat) (strat : Strategy) :
    WF h (fresh (α := α) (β := β) strat) := by
  refine ⟨⟨List.length_replicate .., ⟨3, rfl⟩, ?_⟩, Nat.zero_le 8, rfl⟩
  intro e he k2 v2 hv2 hef
  rw [List.eq_of_mem_replicate he] at hef
  exact Entry.noConfusion hef

theorem reach_WF {h : α → Nat} {s t : HashTable α β}
    (hr : Reach h s t) (hwf : WF h s) : WF h t := by
  induction hr with
  | refl => exact hwf
  | update _ _ _ _ _ hu ih => exact update_WF ih hu
  | remove _ _ _ hrm ih => exact remove_WF ih hrm

theorem runOp_strategy {lf : Nat} {h : α → Nat} :
    ∀ (fuel : Nat) (op : Op α β) (t t' : HashTable α β),
      runOp h lf fuel op t = some t' → t'.strategy = t.strategy := by
  intro fuel
  induction fuel with
  | zero => intro op t t' hr; exact Option.noConfusion hr
  | succ fuel ih =>
    intro op t t' hr
    match op with
    | .upd k v =>
      rw [show runOp h lf (fuel + 1) (.upd k v) t =
        (match (if t.used + 1 > t.size then runOp h lf fuel .resize t else some t) with
         | none => none
         | some t1 => placeEntry lf h k v t1) from rfl] at hr
      cases hmid : (if t.used + 1 > t.size then runOp h lf fuel (.resize : Op α β) t else some t) with
      | none => rw [hmid] at hr; exact Option.noConfusion hr
      | some t1 =>
        rw [hmid] at hr
        have ht1 : t1.strategy = t.strategy := by
          by_cases htr : t.used + 1 > t.size
          · rw [if_pos htr] at hmid
            exact ih _ _ _ hmid
          · rw [if_neg htr] at hmid
            cases hmid
            rfl
        rw [(placeEntry_fields hr).2.1, ht1]
    | .resize =>
      rw [resize_eq] at hr
      cases hrep : runOp h lf fuel (.replay (items t))
          { t with
              updateUsed := false
              size := t.size * 2
              internalList := List.replicate (t.size * 2) .empty } with
      | none => rw [hrep] at hr; exact Option.noConfusion hr
      | some t2 =>
        rw [hrep] at hr
        cases hr
        show t2.strategy = t.strategy
        exact (ih _ _ _ hrep).trans rfl
    | .replay [] =>
      rw [replay_nil_eq] at hr
      cases hr
      rfl
    | .replay ((k, v) :: rest) =>
      rw [replay_cons_eq] at hr
      cases hupd : runOp h lf fuel (.upd k v) t with
      | none => rw [hupd] at hr; exact Option.noConfusion hr
      | some t1 =>
        rw [hupd] at hr
        rw [ih _ _ _ hr, ih _ _ _ hupd]

theorem itemsOfSlots_replicate (n : Nat) :
    itemsOfSlots (List.replicate n (.empty : Entry α β)) = [] := by
  induction n with
  | zero => rfl
  | succ n ih => simpa [List.replicate_succ, itemsOfSlots] using ih

theorem mem_items_of_mem_slots {slots : List (Entry α β)} {k : α}
    {v : Option β} {hv : Nat} (hm : Entry.filled k v hv ∈ slots) :
    (k, v) ∈ itemsOfSlots slots := by
  induction slots with
  | nil => exact absurd hm (List.not_mem_nil _)
  | cons e rest ih =>
    rcases List.mem_cons.mp hm with rfl | hrest
    · simp [itemsOfSlots]
    · cases e with
      | empty => simpa [itemsOfSlots] using ih hrest
      | dummy => simpa [itemsOfSlots] using ih hrest
      | filled k2 v2 hv2 => simp [itemsOfSlots, ih hrest]

theorem noKey_of_not_mem_keys {t : HashTable α β} {k : α}
    (hk : k ∉ (items t).map Prod.fst) : NoKey t k := by
  intro e he v hv hef
  subst hef
  exact hk (List.mem_map.mpr ⟨(k, v), mem_items_of_mem_slots he, rfl⟩)

theorem itemsOfSlots_set_empty {slots : List (Entry α β)} {p : Nat}
    (hp : p < slots.length) (hsl : slots.getD p .empty = .empty)
    (k : α) (v : Option β) (hv : Nat) :
    (itemsOfSlots (slots.set p (.filled k v hv))).Perm
      ((k, v) :: itemsOfSlots slots) := by
  induction slots generalizing p with
  | nil => simp at hp
  | cons e rest ih =>
    cases p with
    | zero =>
      have he : e = .empty := hsl
      subst he
      simp [itemsOfSlots]
    | succ p =>
      have hp' : p < rest.length := by simpa using hp
      have hsl' : rest.getD p .empty = .empty := hsl
      cases e with
      | empty => simpa [itemsOfSlots] using ih hp' hsl'
      | dummy => simpa [itemsOfSlots] using ih hp' hsl'
      | filled k2 v2 hv2 =>
        simp only [List.set_cons_succ, itemsOfSlots]
        exact ((ih hp' hsl').cons (k2, v2)).trans (List.Perm.swap _ _ _)

theorem not_dummy_getD {t : HashTable α β} (hnd : NoDummy t) (q : Nat) :
    t.internalList.getD q .empty ≠ .dummy := by
  intro hq
  by_cases hql : q < t.internalList.length
  · exact hnd _ (hq ▸ getD_mem t.internalList q .empty hql) rfl
  · rw [List.getD_eq_default _ _ (by omega)] at hq
    exact Entry.noConfusion hq

theorem noKey_getD {t : HashTable α β} {k : α} (hnk : NoKey t k) (q : Nat)
    (v : Option β) (hv : Nat) :
    t.internalList.getD q .empty ≠ .filled k v hv := by
  intro hq
  exact hnk _ (getD_filled_mem hq) v hv rfl

/-- A successful `placeEntry` into a dummy-free table that does not hold
`k` lands on an empty slot: the items gain exactly `(k, v)`, no tombstone
is created, other absent keys stay absent, and `used` is bumped exactly
when `__update_used` is set. -/
theorem placeEntry_fresh {fuel : Nat} {h : α → Nat} {k : α} {v : Option β}
    {t t' : HashTable α β}
    (hnd : NoDummy t) (hnk : NoKey t k)
    (hlen : t.internalList.length = t.size) (hpow : ∃ m, t.size = 2 ^ m)
    (hp : placeEntry fuel h k v t = some t') :
    (items t').Perm ((k, v) :: items t) ∧ NoDummy t' ∧
    (∀ k2, k2 ≠ k → NoKey t k2 → NoKey t' k2) ∧
    t'.size = t.size ∧ t'.strategy = t.strategy ∧
    t'.updateUsed = t.updateUsed ∧
    t'.internalList.length = t.internalList.length ∧
    t'.used = (if t.updateUsed = true then t.used + 1 else t.used) := by
  obtain ⟨m, hm⟩ := hpow
  obtain ⟨idx, hlk, ht'⟩ := placeEntry_some hp
  obtain ⟨j, _, hstop, _, hidx⟩ := lookupKey_sound hlk
  have hempty : t.internalList.getD idx .empty = .empty := by
    unfold stopB at hstop
    rw [← hidx] at hstop
    cases hsl : t.internalList.getD idx .empty with
    | empty => rfl
    | dummy => exact absurd hsl (not_dummy_getD hnd idx)
    | filled k2 v2 hv2 =>
      rw [hsl] at hstop
      simp only [decide_eq_true_eq] at hstop
      exact absurd (hstop.2 ▸ hsl) (noKey_getD hnk idx v2 hv2)
  have hidxlt : idx < t.internalList.length := by
    rw [hidx, hlen]
    exact probeSeq_fst_lt _ m hm _ _
  have hlist : t'.internalList = t.internalList.set idx (.filled k v (h k)) := by
    rw [ht']
  refine ⟨?_, ?_, ?_, by rw [ht'], by rw [ht'], by rw [ht'], ?_, ?_⟩
  · show (itemsOfSlots t'.internalList).Perm ((k, v) :: itemsOfSlots t.internalList)
    rw [hlist]
    exact itemsOfSlots_set_empty hidxlt hempty k v (h k)
  · intro e he
    rw [hlist] at he
    rcases List.mem_or_eq_of_mem_set he with h1 | rfl
    · exact hnd e h1
    · exact fun hcon => Entry.noConfusion hcon
  · intro k2 hk2 hnk2 e he v2 hv2 hef
    rw [hlist] at he
    rcases List.mem_or_eq_of_mem_set he with h1 | rfl
    · exact hnk2 e h1 v2 hv2 hef
    · exact hk2 (Entry.filled.injEq .. ▸ hef).1.symm
  · rw [hlist, List.length_set]
  · rw [ht']
    show (if (t.internalList.getD idx .empty).isDummy = false ∧
        t.updateUsed = true then t.used + 1 else t.used) = _
    rw [hempty]
    by_cases hfl : t.updateUsed = true
    · rw [if_pos ⟨rfl, hfl⟩, if_pos hfl]
    · rw [if_neg (fun hcon => hfl hcon.2), if_neg hfl]

theorem update_goodAt {fuel lf : Nat} {h : α → Nat} {k : α} {v : Option β}
    {t t0 : HashTable α β} (hwf : WF h t)
    (hupd : update fuel lf h k v t = some t0) : GoodAt h t0 k v := by
  obtain ⟨⟨hlen, ⟨m, hm⟩, hhash⟩, hused, _⟩ := hwf
  cases fuel with
  | zero => exact Option.noConfusion hupd
  | succ fuel =>
    by_cases ht : t.used + 1 > t.size
    · rw [update_eq_resize ht] at hupd
      cases hres : runOp h lf fuel (.resize : Op α β) t with
      | none => rw [hres] at hupd; exact Option.noConfusion hupd
      | some t1 =>
        rw [hres] at hupd
        have hpos : 0 < t.size := by rw [hm]; exact Nat.pos_pow_of_pos m (by omega)
        obtain ⟨_, _, hsz1, _, hlen1, hh1⟩ := resize_core hused hpos hlen hhash hres
        exact placeEntry_goodAt hlen1 ⟨m + 1, by rw [hsz1, hm]; ring⟩ hh1 hupd
    · rw [update_eq_place ht] at hupd
      exact placeEntry_goodAt hlen ⟨m, hm⟩ hhash hupd

/-- The replay loop of `__increment_size` on a dummy-free table whose
current keys are disjoint from the pairwise-distinct replayed keys (with
`__update_used` cleared, as during a resize): each item lands on a fresh
empty slot, so the final items are the old items plus the replayed ones. -/
theorem replay_items_perm {lf : Nat} {h : α → Nat} :
    ∀ (fuel : Nat) (its : List (α × Option β)) (t t' : HashTable α β),
      t.updateUsed = false → NoDummy t →
      (∀ p ∈ its, NoKey t p.1) → (its.map Prod.fst).Pairwise (· ≠ ·) →
      t.used + 1 ≤ t.size →
      t.internalList.length = t.size → (∃ m, t.size = 2 ^ m) →
      runOp h lf fuel (.replay its) t = some t' →
      (items t').Perm (items t ++ its) ∧ NoDummy t' ∧
      t'.updateUsed = false ∧ t'.used = t.used ∧ t'.size = t.size ∧
      t'.strategy = t.strategy ∧ t'.internalList.length = t.internalList.length := by
  intro fuel
  induction fuel with
  | zero => intro its t t' _ _ _ _ _ _ _ hr; exact Option.noConfusion hr
  | succ fuel ih =>
    intro its t t' hfl hnd hks hdist hu hlen hpow hr
    cases its with
    | nil =>
      rw [replay_nil_eq] at hr
      cases hr
      exact ⟨by simp, hnd, hfl, rfl, rfl, rfl, rfl⟩
    | cons kv rest =>
      obtain ⟨k, v⟩ := kv
      rw [replay_cons_eq] at hr
      cases hupd : runOp h lf fuel (.upd k v) t with
      | none => rw [hupd] at hr; exact Option.noConfusion hr
      | some t1 =>
        rw [hupd] at hr
        cases fuel with
        | zero => exact Option.noConfusion hupd
        | succ fuel2 =>
          have hplace : placeEntry lf h k v t = some t1 := by
            rw [show runOp h lf (fuel2 + 1) (.upd k v) t
                = update (fuel2 + 1) lf h k v t from rfl,
              update_eq_place (by omega)] at hupd
            exact hupd
          obtain ⟨hperm1, hnd1, hnk1, hsz1, hst1, hfl1, hlen1, husd1⟩ :=
            placeEntry_fresh hnd (hks (k, v) (List.mem_cons_self ..)) hlen hpow hplace
          rw [hfl] at husd1
          rw [if_neg Bool.false_ne_true] at husd1
          have hdist0 : (k :: rest.map Prod.fst).Pairwise (· ≠ ·) := by
            simpa using hdist
          have hdist' := List.pairwise_cons.mp hdist0
          have hrest := ih rest t1 t'
            (by rw [hfl1, hfl])
            hnd1
            (fun p hp => hnk1 p.1
              (fun he => (hdist'.1 p.1 (List.mem_map.mpr ⟨p, hp, rfl⟩)) he.symm)
              (hks p (List.mem_cons_of_mem _ hp)))
            hdist'.2
            (by rw [husd1, hsz1]; exact hu)
            (by rw [hlen1, hsz1, hlen])
            (by rw [hsz1]; exact hpow)
            hr
          refine ⟨?_, hrest.2.1, hrest.2.2.1, by rw [hrest.2.2.2.1, husd1],
            by rw [hrest.2.2.2.2.1, hsz1], by rw [hrest.2.2.2.2.2.1, hst1],
            by rw [hrest.2.2.2.2.2.2, hlen1]⟩
          exact (hrest.1.trans ((hperm1.append_right rest).trans List.perm_middle.symm))

/-- `__increment_size` on a table whose filled keys are pairwise distinct
permutes the items (claim C4's resize-preserves-contents, amended with
the distinctness proviso). -/
theorem resize_items_perm {lf fuel : Nat} {h : α → Nat} {t t' : HashTable α β}
    (hdist : ((items t).map Prod.fst).Pairwise (· ≠ ·))
    (hused : t.used ≤ t.size)
    (hlen : t.internalList.length = t.size) (hpow : ∃ m, t.size = 2 ^ m)
    (hr : runOp h lf fuel (.resize : Op α β) t = some t') :
    (items t').Perm (items t) ∧ t'.size = 2 * t.size := by
  obtain ⟨m, hm⟩ := hpow
  cases fuel with
  | zero => exact Option.noConfusion hr
  | succ fuel =>
    rw [resize_eq] at hr
    set t1 : HashTable α β :=
      { t with
          updateUsed := false
          size := t.size * 2
          internalList := List.replicate (t.size * 2) .empty } with ht1
    cases hrep : runOp h lf fuel (.replay (items t)) t1 with
    | none => rw [hrep] at hr; exact Option.noConfusion hr
    | some t2 =>
      rw [hrep] at hr
      cases hr
      have hpos : 0 < t.size := by rw [hm]; exact Nat.pos_pow_of_pos m (by omega)
      have hrest := replay_items_perm fuel (items t) t1 t2 rfl
        (by
          intro e he
          rw [List.eq_of_mem_replicate he]
          exact fun hcon => Entry.noConfusion hcon)
        (by
          intro p hp e he v2 hv2 hef
          rw [List.eq_of_mem_replicate he] at hef
          exact Entry.noConfusion hef)
        hdist
        (by dsimp only; omega)
        (by dsimp only; exact List.length_replicate ..)
        ⟨m + 1, by dsimp only; rw [hm]; ring⟩
        hrep
      constructor
      · show (itemsOfSlots t2.internalList).Perm _
        have : items t1 = [] := itemsOfSlots_replicate _
        have h2 := hrest.1
        rw [this] at h2
        simpa using h2
      · show t2.size = 2 * t.size
        rw [hrest.2.2.2.2.1]
        dsimp only
        omega

/-! ## Helper lemmas: termination of simple linear probing -/

theorem probeSeq_simple (m kh : Nat) :
    ∀ n, (probeSeq .simple (2 ^ m) kh n).1 = (kh + n) % 2 ^ m := by
  intro n
  induction n with
  | zero =>
    show kh &&& (2 ^ m - 1) = _
    rw [Nat.and_pow_two_sub_one_eq_mod]
    simp
  | succ n ih =>
    rw [probeSeq_succ]
    show ((probeSeq .simple (2 ^ m) kh n).1 + 1) &&& (2 ^ m - 1) = _
    rw [ih, Nat.and_pow_two_sub_one_eq_mod, Nat.mod_add_mod]
    congr 1

theorem exists_empty_slot {slots : List (Entry α β)}
    (hnd : ∀ e ∈ slots, e ≠ Entry.dummy)
    (hlt : (itemsOfSlots slots).length < slots.length) :
    ∃ p, p < slots.length ∧ slots.getD p .empty = .empty := by
  induction slots with
  | nil => simp at hlt
  | cons e rest ih =>
    cases e with
    | empty => exact ⟨0, by simp, rfl⟩
    | dummy => exact absurd rfl (hnd _ (List.mem_cons_self ..))
    | filled k2 v2 hv2 =>
      have hlt' : (itemsOfSlots rest).length < rest.length := by
        simpa [itemsOfSlots] using hlt
      obtain ⟨p, hp, hsl⟩ := ih (fun e he => hnd e (List.mem_cons_of_mem _ he)) hlt'
      exact ⟨p + 1, by simpa using hp, hsl⟩

theorem lookupKey_simple_empty {h : α → Nat} {t : HashTable α β} {k : α}
    {s : Bool} {lf : Nat} (m : Nat) (hsz : t.size = 2 ^ m)
    (hstrat : t.strategy = .simple)
    (hlen : t.internalList.length = t.size)
    (hnd : NoDummy t) (hnk : NoKey t k)
    (hitems : (items t).length < t.size) (hlf : t.size ≤ lf) :
    ∃ idx, lookupKey lf h t k s = some idx ∧
      t.internalList.getD idx .empty = .empty := by
  obtain ⟨p, hp, hsl⟩ := exists_empty_slot hnd (by rw [hlen]; exact hitems)
  have hplt : p < 2 ^ m := by rw [← hsz, ← hlen]; exact hp
  have hMpos : 0 < 2 ^ m := Nat.pos_pow_of_pos m (by omega)
  have hr : h k % 2 ^ m < 2 ^ m := Nat.mod_lt _ hMpos
  have hn0P : stopB t.internalList (h k) k s
      (probeSeq t.strategy t.size (h k)
        ((p + 2 ^ m - h k % 2 ^ m) % 2 ^ m)).1 = true := by
    have hseq : (probeSeq t.strategy t.size (h k)
        ((p + 2 ^ m - h k % 2 ^ m) % 2 ^ m)).1 = p := by
      rw [hstrat, hsz, probeSeq_simple]
      have h2 : h k ≡ h k % 2 ^ m [MOD 2 ^ m] := (Nat.mod_modEq _ _).symm
      have h3 := h2.add (Nat.mod_modEq (p + 2 ^ m - h k % 2 ^ m) (2 ^ m))
      have h4 : h k % 2 ^ m + (p + 2 ^ m - h k % 2 ^ m) = p + 2 ^ m := by omega
      rw [Nat.ModEq] at h3
      rw [h3, h4, Nat.add_mod_right, Nat.mod_eq_of_lt hplt]
    unfold stopB
    rw [hseq, hsl]
  have hn0lt : (p + 2 ^ m - h k % 2 ^ m) % 2 ^ m < t.size := by
    rw [hsz]
    exact Nat.mod_lt _ hMpos
  have hex : ∃ n, stopB t.internalList (h k) k s
      (probeSeq t.strategy t.size (h k) n).1 = true := ⟨_, hn0P⟩
  have hjle : Nat.find hex ≤ (p + 2 ^ m - h k % 2 ^ m) % 2 ^ m :=
    Nat.find_min' hex hn0P
  have hjstop := Nat.find_spec hex
  have hjpre : ∀ i < Nat.find hex, stopB t.internalList (h k) k s
      (probeSeq t.strategy t.size (h k) i).1 = false := by
    intro i hi
    have := Nat.find_min hex hi
    exact Bool.eq_false_iff.mpr this
  have hjlf : Nat.find hex < lf := by omega
  refine ⟨(probeSeq t.strategy t.size (h k) (Nat.find hex)).1,
    lookupKey_finds hjlf hjstop hjpre, ?_⟩
  unfold stopB at hjstop
  cases hcon : t.internalList.getD
      (probeSeq t.strategy t.size (h k) (Nat.find hex)).1 .empty with
  | empty => rfl
  | dummy =>
    exact absurd hcon (not_dummy_getD hnd _)
  | filled k2 v2 hv2 =>
    rw [hcon] at hjstop
    simp only [decide_eq_true_eq] at hjstop
    exact absurd (hjstop.2 ▸ hcon) (noKey_getD hnk _ v2 hv2)

/-- Constructive insertion step: in a dummy-free, simply-probed,
not-yet-full table that does not hold `k`, `placeEntry` succeeds. -/
theorem placeEntry_fresh_simple {h : α → Nat} {k : α} {v : Option β}
    {t : HashTable α β} {w : Nat} (m : Nat)
    (hsz : t.size = 2 ^ m) (hstrat : t.strategy = .simple)
    (hlen : t.internalList.length = t.size)
    (hnd : NoDummy t) (hnk : NoKey t k)
    (hitems : (items t).length < t.size) (hlf : t.size ≤ w) :
    ∃ t', placeEntry w h k v t = some t' ∧
      (items t').Perm ((k, v) :: items t) ∧ NoDummy t' ∧
      (∀ k2, k2 ≠ k → NoKey t k2 → NoKey t' k2) ∧
      t'.size = t.size ∧ t'.strategy = t.strategy ∧
      t'.updateUsed = t.updateUsed ∧
      t'.internalList.length = t.internalList.length ∧
      t'.used = (if t.updateUsed = true then t.used + 1 else t.used) := by
  obtain ⟨idx, hlk, _⟩ :=
    lookupKey_simple_empty (s := false) m hsz hstrat hlen hnd hnk hitems hlf
  have hp : ∃ t', placeEntry w h k v t = some t' := by
    unfold placeEntry
    rw [hlk]
    exact ⟨_, rfl⟩
  obtain ⟨t', hp⟩ := hp
  have hfr := placeEntry_fresh hnd hnk hlen ⟨m, hsz⟩ hp
  exact ⟨t', hp, hfr.1, hfr.2.1, hfr.2.2.1, hfr.2.2.2.1, hfr.2.2.2.2.1,
    hfr.2.2.2.2.2.1, hfr.2.2.2.2.2.2.1, hfr.2.2.2.2.2.2.2⟩

/-- Constructive non-resizing `update` in the same setting. -/
theorem update_fresh_simple {h : α → Nat} {k : α} {v : Option β}
    {t : HashTable α β} {z lf : Nat} (m : Nat)
    (hsz : t.size = 2 ^ m) (hstrat : t.strategy = .simple)
    (hlen : t.internalList.length = t.size)
    (hnd : NoDummy t) (hnk : NoKey t k)
    (hitems : (items t).length < t.size)
    (hnt : ¬ t.used + 1 > t.size) (hlf : t.size ≤ lf) :
    ∃ t', update (z + 1) lf h k v t = some t' ∧
      (items t').Perm ((k, v) :: items t) ∧ NoDummy t' ∧
      (∀ k2, k2 ≠ k → NoKey t k2 → NoKey t' k2) ∧
      t'.size = t.size ∧ t'.strategy = t.strategy ∧
      t'.updateUsed = t.updateUsed ∧
      t'.internalList.length = t.internalList.length ∧
      t'.used = (if t.updateUsed = true then t.used + 1 else t.used) := by
  obtain ⟨t', hp, hrest⟩ :=
    placeEntry_fresh_simple (v := v) m hsz hstrat hlen hnd hnk hitems hlf
  exact ⟨t', by rw [update_eq_place hnt]; exact hp, hrest⟩

/-- Constructive replay of pairwise-distinct fresh keys through the
resize loop (simple probing, `__update_used` cleared). -/
theorem replay_fresh_simple {h : α → Nat} {lf : Nat} :
    ∀ (its : List (α × Option β)) (fuel : Nat) (t : HashTable α β) (m : Nat),
      t.size = 2 ^ m → t.strategy = .simple → t.updateUsed = false →
      t.internalList.length = t.size → NoDummy t →
      (∀ p ∈ its, NoKey t p.1) → (its.map Prod.fst).Pairwise (· ≠ ·) →
      (items t).length + its.length ≤ t.size → t.used + 1 ≤ t.size →
      t.size ≤ lf → its.length < fuel →
      ∃ t', runOp h lf fuel (.replay its) t = some t' ∧
        (items t').Perm (items t ++ its) ∧ NoDummy t' ∧
        t'.updateUsed = false ∧ t'.used = t.used ∧ t'.size = t.size ∧
        t'.strategy = t.strategy ∧
        t'.internalList.length = t.internalList.length := by
  intro its
  induction its with
  | nil =>
    intro fuel t m _ _ hfl _ hnd _ _ _ _ _ hfuel
    cases fuel with
    | zero => omega
    | succ fuel =>
      exact ⟨t, replay_nil_eq, by simp, hnd, hfl, rfl, rfl, rfl, rfl⟩
  | cons kv rest ih =>
    intro fuel t m hsz hstrat hfl hlen hnd hks hdist hcnt hu hlf hfuel
    obtain ⟨k, v⟩ := kv
    cases fuel with
    | zero => omega
    | succ f =>
      cases f with
      | zero => simp at hfuel
      | succ f2 =>
        obtain ⟨t1, hupd, hperm1, hnd1, hnk1, hsz1, hst1, hfl1, hlen1, husd1⟩ :=
          update_fresh_simple (z := f2) (v := v) m hsz hstrat hlen hnd
            (hks (k, v) (List.mem_cons_self ..))
            (by simp at hcnt; omega)
            (by omega) hlf
        rw [hfl, if_neg Bool.false_ne_true] at husd1
        have hdist0 : (k :: rest.map Prod.fst).Pairwise (· ≠ ·) := by
          simpa using hdist
        have hdist' := List.pairwise_cons.mp hdist0
        obtain ⟨t', hrep, hperm2, hnd2, hfl2, husd2, hsz2, hst2, hlen2⟩ :=
          ih (f2 + 1) t1 m (by rw [hsz1]; exact hsz) (by rw [hst1]; exact hstrat)
            (by rw [hfl1]; exact hfl) (by rw [hlen1, hsz1]; exact hlen) hnd1
            (fun p hp => hnk1 p.1
              (fun he => (hdist'.1 p.1 (List.mem_map.mpr ⟨p, hp, rfl⟩)) he.symm)
              (hks p (List.mem_cons_of_mem _ hp)))
            hdist'.2
            (by
              have hl1 : (items t1).length = (items t).length + 1 := by
                rw [hperm1.length_eq]
                simp
              rw [hl1, hsz1]
              simp at hcnt
              omega)
            (by rw [husd1, hsz1]; exact hu)
            (by rw [hsz1]; exact hlf)
            (by simp at hfuel ⊢; omega)
        refine ⟨t', ?_, ?_, hnd2, hfl2, by rw [husd2, husd1],
          by rw [hsz2, hsz1], by rw [hst2, hst1], by rw [hlen2, hlen1]⟩
        · rw [replay_cons_eq]
          rw [show runOp h lf (f2 + 1) (.upd k v) t = some t1 from hupd]
          exact hrep
        · exact hperm2.trans ((hperm1.append_right rest).trans List.perm_middle.symm)

/-- Constructive `__increment_size` for a dummy-free simply-probed table
with pairwise-distinct keys: the resize succeeds, doubles the capacity,
and permutes the items. -/
theorem resize_fresh_simple {h : α → Nat} {w f : Nat}
    {t : HashTable α β} (m : Nat)
    (hsz : t.size = 2 ^ m) (hstrat : t.strategy = .simple)
    (hlen : t.internalList.length = t.size)
    (hdist : ((items t).map Prod.fst).Pairwise (· ≠ ·))
    (hused : t.used ≤ t.size) (hcnt : (items t).length ≤ t.size)
    (hlf : 2 * t.size ≤ w) (hfuel : (items t).length < f) :
    ∃ t', runOp h w (f + 1) (.resize : Op α β) t = some t' ∧
      (items t').Perm (items t) ∧ NoDummy t' ∧ t'.updateUsed = true ∧
      t'.used = t.used ∧ t'.size = 2 * t.size ∧ t'.strategy = t.strategy ∧
      t'.internalList.length = t'.size := by
  have hpos : 0 < t.size := by rw [hsz]; exact Nat.pos_pow_of_pos m (by omega)
  obtain ⟨t2, hrep, hperm2, hnd2, hfl2, husd2, hsz2, hst2, hlen2⟩ :=
    replay_fresh_simple (items t) f
      { t with
          updateUsed := false
          size := t.size * 2
          internalList := List.replicate (t.size * 2) .empty } (m + 1)
      (show t.size * 2 = 2 ^ (m + 1) by rw [hsz]; ring)
      hstrat
      rfl
      (List.length_replicate ..)
      (by
        intro e he
        rw [List.eq_of_mem_replicate he]
        exact fun hcon => Entry.noConfusion hcon)
      (by
        intro p hp e he v2 hv2 hef
        rw [List.eq_of_mem_replicate he] at hef
        exact Entry.noConfusion hef)
      hdist
      (by
        show (itemsOfSlots (List.replicate (t.size * 2) .empty)).length
          + (items t).length ≤ t.size * 2
        rw [itemsOfSlots_replicate]
        simp
        omega)
      (show t.used + 1 ≤ t.size * 2 by omega)
      (show t.size * 2 ≤ w by omega)
      hfuel
  have hit1 : items ({ t with
      updateUsed := false
      size := t.size * 2
      internalList := List.replicate (t.size * 2) .empty } : HashTable α β)
      = [] := itemsOfSlots_replicate _
  refine ⟨{ t2 with updateUsed := true }, ?_, ?_, ?_, rfl, ?_, ?_, ?_, ?_⟩
  · rw [resize_eq, hrep]
  · show (items t2).Perm (items t)
    have h2 := hperm2
    rw [hit1] at h2
    simpa using h2
  · intro e he
    exact hnd2 e he
  · show t2.used = t.used
    rw [husd2]
  · show t2.size = 2 * t.size
    rw [hsz2]
    show t.size * 2 = 2 * t.size
    omega
  · show t2.strategy = t.strategy
    rw [hst2]
  · show t2.internalList.length = t2.size
    rw [hlen2, hsz2]
    exact List.length_replicate ..

/-- Constructive chain of fresh-key insertions (`List.foldlM` over
`update`): all insertions succeed, items accumulate, `used` counts them. -/
theorem insertList_simple {h : α → Nat} {w f : Nat} :
    ∀ (l : List (α × Option β)) (t : HashTable α β) (m : Nat),
      t.size = 2 ^ m → t.strategy = .simple → t.updateUsed = true →
      t.internalList.length = t.size → NoDummy t →
      (∀ p ∈ l, NoKey t p.1) → (l.map Prod.fst).Pairwise (· ≠ ·) →
      (items t).length + l.length ≤ t.size →
      t.used = (items t).length → t.size ≤ w → 0 < f →
      ∃ t', List.foldlM (m := Option)
          (fun acc p => update f w h p.1 p.2 acc) t l = some t' ∧
        (items t').Perm (items t ++ l) ∧ NoDummy t' ∧
        t'.updateUsed = true ∧ t'.used = t.used + l.length ∧
        t'.size = t.size ∧ t'.strategy = t.strategy ∧
        t'.internalList.length = t.internalList.length := by
  intro l
  induction l with
  | nil =>
    intro t m _ _ hfl _ hnd _ _ _ _ _ _
    exact ⟨t, rfl, by simp, hnd, hfl, rfl, rfl, rfl, rfl⟩
  | cons kv rest ih =>
    intro t m hsz hstrat hfl hlen hnd hks hdist hcnt husd hlf hfu
    obtain ⟨k, v⟩ := kv
    obtain ⟨fz, rfl⟩ : ∃ fz, f = fz + 1 := ⟨f - 1, by omega⟩
    obtain ⟨t1, hupd, hperm1, hnd1, hnk1, hsz1, hst1, hfl1, hlen1, husd1⟩ :=
      update_fresh_simple (z := fz) (v := v) m hsz hstrat hlen hnd
        (hks (k, v) (List.mem_cons_self ..))
        (by simp at hcnt; omega)
        (by rw [husd]; simp at hcnt; omega) hlf
    rw [hfl, if_pos rfl] at husd1
    have hdist0 : (k :: rest.map Prod.fst).Pairwise (· ≠ ·) := by
      simpa using hdist
    have hdist' := List.pairwise_cons.mp hdist0
    have hl1 : (items t1).length = (items t).length + 1 := by
      rw [hperm1.length_eq]
      simp
    obtain ⟨t', hfold, hperm2, hnd2, hfl2, husd2, hsz2, hst2, hlen2⟩ :=
      ih t1 m (by rw [hsz1]; exact hsz) (by rw [hst1]; exact hstrat)
        (by rw [hfl1]; exact hfl) (by rw [hlen1, hsz1]; exact hlen) hnd1
        (fun p hp => hnk1 p.1
          (fun he => (hdist'.1 p.1 (List.mem_map.mpr ⟨p, hp, rfl⟩)) he.symm)
          (hks p (List.mem_cons_of_mem _ hp)))
        hdist'.2
        (by rw [hl1, hsz1]; simp at hcnt; omega)
        (by rw [husd1, husd, hl1])
        (by rw [hsz1]; exact hlf)
        hfu
    refine ⟨t', ?_, ?_, hnd2, hfl2, ?_, by rw [hsz2, hsz1],
      by rw [hst2, hst1], by rw [hlen2, hlen1]⟩
    · show (update (fz + 1) w h k v t).bind
        (fun acc => List.foldlM (m := Option)
          (fun acc p => update (fz + 1) w h p.1 p.2 acc) acc rest) = some t'
      rw [hupd]
      exact hfold
    · exact hperm2.trans ((hperm1.append_right rest).trans List.perm_middle.symm)
    · rw [husd2, husd1]
      simp
      omega

end HashTable

/-! ## The claims -/

/-- Claim C1, amended: after `update(k, v)` on a reachable (well-formed)
table, a subsequent `get(k)` returns `v` whenever it terminates, and one
terminating `get(k)` exists; this continues to hold through later
removals of other keys and later non-resizing updates of other keys (the
original unconditional persistence fails when a later update of another
key triggers a resize while a tombstone-reuse insertion has left a
duplicate copy of `k`: see the counterexample). -/
theorem claim1_theorem {α β : Type} [DecidableEq α] {h : α → Nat}
    {t t0 t1 : HashTable α β} {k : α} {v : Option β} {fuel lf : Nat}
    (hwf : HashTable.WF h t)
    (hupd : HashTable.update fuel lf h k v t = some t0)
    (hper : HashTable.Persists h k t0 t1) :
    (∀ F r, HashTable.get F h t1 k = some r → r = v) ∧
    (∃ F, HashTable.get F h t1 k = some v) := by
  have hg0 : HashTable.GoodAt h t0 k v := HashTable.update_goodAt hwf hupd
  have hg1 : HashTable.GoodAt h t1 k v := by
    induction hper with
    | refl => exact hg0
    | tail hab hbc ih =>
      cases hbc with
      | remove k2 fuel2 hk2 hrm => exact HashTable.remove_goodAt hk2 hrm ih
      | update k2 v2 fuel2 lf2 hk2 hnt hu2 =>
        exact HashTable.update_noresize_goodAt hk2 hnt hu2 ih
  exact HashTable.goodAt_get hg1

/-- Witness for C1: on a fresh table (hash function constantly 0),
`update(5, 3)` stores the pair at slot 0 and `get(5)` then returns 3. -/
theorem claim1_witness :
    (∀ F r, HashTable.get F (fun _ => 0)
        (⟨8, 1, true, .simple,
          [.filled 5 (some 3) 0, .empty, .empty, .empty, .empty, .empty, .empty,
            .empty]⟩ : HashTable Nat Int) 5 = some r → r = some 3) ∧
    (∃ F, HashTable.get F (fun _ => 0)
        (⟨8, 1, true, .simple,
          [.filled 5 (some 3) 0, .empty, .empty, .empty, .empty, .empty, .empty,
            .empty]⟩ : HashTable Nat Int) 5 = some (some 3)) :=
  claim1_theorem (HashTable.fresh_WF _ .simple)
    (show HashTable.update 1 32 (fun _ => 0) 5 (some 3) (HashTable.fresh .simple)
      = some _ by decide)
    Relation.ReflTransGen.refl

/-- Counterexample to C1 as stated.  Under the table's hasher with secret
key 0, keys 1 and 3 collide modulo 8.  In the trace `cexFull` the last
update of key 3 stored value 42 (reusing the tombstone left by
`remove(1)`, which created a duplicate: the older copy `(3, 7)` is still
in slot 1).  A later `update(9, 9)` — a different key, no remove of 3, no
overwrite of 3 — triggers a resize whose replay lets the stale `(3, 7)`
overwrite `(3, 42)`, so `get(3)` afterwards returns 7, not 42. -/
theorem claim1_counterexample :
    ((cexFull.bind (fun t => HashTable.update 20 64 cexHash 9 (some 9) t)).bind
      (fun t => HashTable.get 64 cexHash t 3)) = some (some 7) ∧
    some (some (7 : Int)) ≠ some (some (42 : Int)) :=
  ⟨by decide, by decide⟩

/-- Claim C2, amended: if key `k` is present, reachable along its probe
chain, and stored in exactly one slot, then after `remove(k)` any
terminating `get(k)` reports NotFound (`none`), while the slot that held
`k` remains occupied as a tombstone and `usedCount` is not decremented.
(As stated, the claim fails when tombstone-reuse insertion has left a
duplicate copy of `k`: `remove(k)` only tombstones the first copy and
`get(k)` then returns the older copy — see the counterexample.  Moreover
in a completely full table the `get(k)` probe loop never terminates.) -/
theorem claim2_theorem {α β : Type} [DecidableEq α] {h : α → Nat}
    {t t' : HashTable α β} {k : α} {v : Option β} {G j : Nat}
    (hgood : t.internalList.getD
      (HashTable.probeSeq t.strategy t.size (h k) j).1 .empty = .filled k v (h k))
    (hpre : ∀ i < j, HashTable.blockB t.internalList k
      (HashTable.probeSeq t.strategy t.size (h k) i).1 = true)
    (huniq : ∀ q, q ≠ (HashTable.probeSeq t.strategy t.size (h k) j).1 →
      ∀ v2 hv2, t.internalList.getD q .empty ≠ .filled k v2 hv2)
    (hrem : HashTable.remove G h t k = some t') :
    (∀ F r, HashTable.get F h t' k = some r → r = none) ∧
    t'.internalList.getD
      (HashTable.probeSeq t.strategy t.size (h k) j).1 .empty = .dummy ∧
    t'.used = t.used := by
  have hstop : HashTable.stopB t.internalList (h k) k true
      (HashTable.probeSeq t.strategy t.size (h k) j).1 = true := by
    unfold HashTable.stopB
    rw [hgood]
    simp
  have hprestop : ∀ i < j, HashTable.stopB t.internalList (h k) k true
      (HashTable.probeSeq t.strategy t.size (h k) i).1 = false := by
    intro i hij
    have hb := hpre i hij
    unfold HashTable.blockB at hb
    unfold HashTable.stopB
    cases hsl : t.internalList.getD
        (HashTable.probeSeq t.strategy t.size (h k) i).1 .empty with
    | empty => rw [hsl] at hb; exact Bool.noConfusion hb
    | dummy => rfl
    | filled k2 v2 hv2 =>
      rw [hsl] at hb
      simp only [decide_eq_true_eq] at hb
      simp [hb]
  obtain ⟨idx, hlk, ht'⟩ := HashTable.remove_some hrem
  obtain ⟨j2, hj2f, hstop2, hpre2, hidx⟩ := HashTable.lookupKey_sound hlk
  have hj2 : j2 = j := by
    rcases Nat.lt_trichotomy j2 j with hlt | heq | hgt
    · rw [hprestop j2 hlt] at hstop2; exact Bool.noConfusion hstop2
    · exact heq
    · rw [hpre2 j hgt] at hstop; exact Bool.noConfusion hstop
  rw [hj2] at hidx
  have hplt : (HashTable.probeSeq t.strategy t.size (h k) j).1
      < t.internalList.length := HashTable.lt_length_of_getD_filled hgood
  have hlist : t'.internalList = t.internalList.set
      (HashTable.probeSeq t.strategy t.size (h k) j).1 .dummy := by
    rw [ht', hidx, hgood]
    simp only [Entry.isFilled, if_pos]
  have hsame : t'.strategy = t.strategy ∧ t'.size = t.size ∧ t'.used = t.used := by
    rw [ht']
    split <;> exact ⟨rfl, rfl, rfl⟩
  refine ⟨?_, ?_, hsame.2.2⟩
  · intro F r hget
    unfold HashTable.get at hget
    obtain ⟨idx2, hlk2, hrv⟩ := Option.map_eq_some'.mp hget
    rw [← hrv]
    cases hsl : t'.internalList.getD idx2 .empty with
    | empty => rfl
    | dummy => rfl
    | filled k3 v3 hv3 =>
      obtain ⟨j3, _, hstop3, _, hidx3⟩ := HashTable.lookupKey_sound hlk2
      have hk3 : k3 = k := by
        unfold HashTable.stopB at hstop3
        rw [← hidx3, hsl] at hstop3
        simp only [decide_eq_true_eq] at hstop3
        exact hstop3.2
      exfalso
      have hne2 : idx2 ≠ (HashTable.probeSeq t.strategy t.size (h k) j).1 := by
        intro he
        rw [hlist, he, HashTable.getD_set_self _ _ _ _ hplt] at hsl
        exact Entry.noConfusion hsl
      have hold : t.internalList.getD idx2 .empty = .filled k3 v3 hv3 := by
        rw [hlist, HashTable.getD_set_ne _ _ _ _ _ (Ne.symm hne2)] at hsl
        exact hsl
      exact huniq idx2 hne2 v3 hv3 (hk3 ▸ hold)
  · rw [hlist]
    exact HashTable.getD_set_self _ _ _ _ hplt

/-- Witness for C2: a table holding only `(4, 9)` at slot 0 (hash
function constantly 0); after `remove(4)`, any terminating `get(4)`
returns `none`, slot 0 is a tombstone, and `usedCount` stays 1. -/
theorem claim2_witness :
    (∀ F r, HashTable.get F (fun _ => 0)
        (⟨8, 1, true, .simple,
          [.dummy, .empty, .empty, .empty, .empty, .empty, .empty, .empty]⟩
          : HashTable Nat Int) 4 = some r → r = none) ∧
    (⟨8, 1, true, .simple,
      [.dummy, .empty, .empty, .empty, .empty, .empty, .empty, .empty]⟩
      : HashTable Nat Int).internalList.getD
        (HashTable.probeSeq Strategy.simple 8 0 0).1 .empty = .dummy ∧
    (⟨8, 1, true, .simple,
      [.dummy, .empty, .empty, .empty, .empty, .empty, .empty, .empty]⟩
      : HashTable Nat Int).used =
    (⟨8, 1, true, .simple,
      [.filled 4 (some 9) 0, .empty, .empty, .empty, .empty, .empty, .empty,
        .empty]⟩ : HashTable Nat Int).used :=
  claim2_theorem (t := ⟨8, 1, true, .simple,
      [.filled 4 (some 9) 0, .empty, .empty, .empty, .empty, .empty, .empty,
        .empty]⟩) (j := 0) (v := some 9) (G := 32)
    (by decide)
    (fun i hi => absurd hi (Nat.not_lt_zero i))
    (by
      intro q hq v2 hv2
      match q, hq with
      | q + 1, _ =>
        by_cases hq8 : q + 1 < 8
        · have hq7 : q ≤ 6 := by omega
          interval_cases q <;> exact fun hcon => Entry.noConfusion hcon
        · rw [List.getD_eq_default _ _ (by simp; omega)]
          exact fun hcon => Entry.noConfusion hcon)
    (by decide)

/-- Counterexample to C2 as stated.  In `cexBase` (hasher with secret key
0, keys 1 and 3 colliding modulo 8) key 3 is present but duplicated:
`(3, 42)` in slot 0 — inserted by tombstone reuse — and the older `(3, 7)`
in slot 1.  `remove(3)` tombstones only slot 0, and `get(3)` then returns
the stale value 7 instead of the NotFound sentinel `none`. -/
theorem claim2_counterexample :
    (cexBase.bind (fun t => HashTable.remove 32 cexHash t 3)).bind
      (fun t => HashTable.get 32 cexHash t 3) = some (some 7) ∧
    some (some (7 : Int)) ≠ some (none : Option Int) :=
  ⟨by decide, by decide⟩

/-- Claim C3: starting from a freshly constructed table (capacity 8,
`load_factor` threshold 1), after every successful `update` call in any
sequence of operations, `usedCount / capacity ≤ 1`, i.e.
`used ≤ size`. -/
theorem claim3_theorem {α β : Type} [DecidableEq α] {h : α → Nat}
    {strat : Strategy} {t t' : HashTable α β} {fuel lf : Nat} {k : α}
    {v : Option β}
    (hreach : HashTable.Reach h (HashTable.fresh strat) t)
    (hupd : HashTable.update fuel lf h k v t = some t') :
    t'.used ≤ t'.size :=
  (HashTable.update_WF
    (HashTable.reach_WF hreach (HashTable.fresh_WF h strat)) hupd).2.1

/-- Witness for C3: the first insertion into a fresh table gives
`used = 1 ≤ 8 = size`. -/
theorem claim3_witness :
    (⟨8, 1, true, .simple,
      [.filled 5 (some 3) 0, .empty, .empty, .empty, .empty, .empty, .empty,
        .empty]⟩ : HashTable Nat Int).used ≤
    (⟨8, 1, true, .simple,
      [.filled 5 (some 3) 0, .empty, .empty, .empty, .empty, .empty, .empty,
        .empty]⟩ : HashTable Nat Int).size :=
  claim3_theorem (HashTable.Reach.refl _)
    (show HashTable.update 1 32 (fun _ => 0) 5 (some 3) (HashTable.fresh .simple)
      = some _ by decide)

/-- Claim C4, amended: when the filled slots hold pairwise-distinct keys,
an internal resize (`__increment_size`) preserves the table's contents —
the items before and after are a permutation of each other, hence equal
as sets of `(key, value)` pairs.  (As stated, over all table states, the
claim fails: tombstone-reuse insertion can leave two filled slots for the
same key, and the resize replay collapses them, dropping a pair — see the
counterexample.) -/
theorem claim4_theorem {α β : Type} [DecidableEq α] [DecidableEq β]
    {h : α → Nat} {t t' : HashTable α β} {fuel lf : Nat}
    (hdist : ((HashTable.items t).map Prod.fst).Pairwise (· ≠ ·))
    (hused : t.used ≤ t.size)
    (hlen : t.internalList.length = t.size) (hpow : ∃ m, t.size = 2 ^ m)
    (hinc : HashTable.incrementSize fuel lf h t = some t') :
    (HashTable.items t').Perm (HashTable.items t) ∧
    (HashTable.items t').toFinset = (HashTable.items t).toFinset ∧
    t'.size = 2 * t.size := by
  have hperm := HashTable.resize_items_perm hdist hused hlen hpow hinc
  exact ⟨hperm.1, List.toFinset_eq_of_perm _ _ hperm.1, hperm.2⟩

/-- Witness for C4: resizing a table that holds the single pair `(4, 9)`
keeps exactly that pair and doubles the capacity to 16. -/
theorem claim4_witness :
    (HashTable.items (⟨16, 1, true, .simple,
      [.filled 4 (some 9) 0, .empty, .empty, .empty, .empty, .empty, .empty,
        .empty, .empty, .empty, .empty, .empty, .empty, .empty, .empty,
        .empty]⟩ : HashTable Nat Int)).Perm
      (HashTable.items (⟨8, 1, true, .simple,
        [.filled 4 (some 9) 0, .empty, .empty, .empty, .empty, .empty, .empty,
          .empty]⟩ : HashTable Nat Int)) ∧
    (HashTable.items (⟨16, 1, true, .simple,
      [.filled 4 (some 9) 0, .empty, .empty, .empty, .empty, .empty, .empty,
        .empty, .empty, .empty, .empty, .empty, .empty, .empty, .empty,
        .empty]⟩ : HashTable Nat Int)).toFinset =
      (HashTable.items (⟨8, 1, true, .simple,
        [.filled 4 (some 9) 0, .empty, .empty, .empty, .empty, .empty, .empty,
          .empty]⟩ : HashTable Nat Int)).toFinset ∧
    (⟨16, 1, true, .simple,
      [.filled 4 (some 9) 0, .empty, .empty, .empty, .empty, .empty, .empty,
        .empty, .empty, .empty, .empty, .empty, .empty, .empty, .empty,
        .empty]⟩ : HashTable Nat Int).size =
      2 * (⟨8, 1, true, .simple,
        [.filled 4 (some 9) 0, .empty, .empty, .empty, .empty, .empty, .empty,
          .empty]⟩ : HashTable Nat Int).size :=
  claim4_theorem (by decide) (by decide) (by decide) ⟨3, rfl⟩
    (show HashTable.incrementSize 20 32 (fun _ => 0) _ = some _ by decide)

/-- Counterexample to C4 as stated.  The reachable table `cexFull` holds
two filled slots for key 3 — `(3, 42)` and `(3, 7)` — thanks to tombstone
reuse.  `__increment_size` replays the items in slot order, so the second
copy overwrites the first and the items set after the resize has lost
`(3, 42)`: the sets before and after differ. -/
theorem claim4_counterexample :
    (cexFull.bind (fun t => HashTable.incrementSize 20 64 cexHash t)).map
      (fun t => (HashTable.items t).toFinset) ≠
    cexFull.map (fun t => (HashTable.items t).toFinset) :=
  by decide

/-- Claim C5: for a table not inside a resize replay (`__update_used`
true, as in every reachable state), a successful `update(k, v)` first
resizes exactly when `used + 1 > size`, then places the entry at the index
found by the non-tombstone-skipping lookup, and increments `usedCount` if
and only if that target slot was not previously a tombstone — in
particular an update that overwrites an already-present key's filled slot
still increments `usedCount`. -/
theorem claim5_theorem {α β : Type} [DecidableEq α] {h : α → Nat}
    {t t' : HashTable α β} {k : α} {v : Option β} {fuel lf : Nat}
    (hwf : HashTable.WF h t)
    (hupd : HashTable.update (fuel + 1) lf h k v t = some t') :
    ∃ t1 idx,
      ((t.used + 1 > t.size ∧ HashTable.incrementSize fuel lf h t = some t1) ∨
        (¬ t.used + 1 > t.size ∧ t1 = t)) ∧
      HashTable.lookupKey lf h t1 k false = some idx ∧
      t1.used = t.used ∧ t1.updateUsed = true ∧
      (t'.used = t.used + 1 ↔
        (t1.internalList.getD idx .empty).isDummy = false) ∧
      ((t1.internalList.getD idx .empty).isFilled = true →
        t'.used = t.used + 1) := by
  obtain ⟨⟨hlen, ⟨m, hm⟩, hhash⟩, hused, hflag⟩ := hwf
  by_cases ht : t.used + 1 > t.size
  · rw [HashTable.update_eq_resize ht] at hupd
    cases hres : HashTable.runOp h lf fuel (.resize : HashTable.Op α β) t with
    | none => rw [hres] at hupd; exact Option.noConfusion hupd
    | some t1 =>
      rw [hres] at hupd
      have hpos : 0 < t.size := by rw [hm]; exact Nat.pos_pow_of_pos m (by omega)
      obtain ⟨hfl1, husd1, _, _, _, _⟩ :=
        HashTable.resize_core hused hpos hlen hhash hres
      obtain ⟨idx, hlk, ht'⟩ := HashTable.placeEntry_some hupd
      refine ⟨t1, idx, Or.inl ⟨ht, hres⟩, hlk, husd1, hfl1, ?_, ?_⟩
      · rw [ht']
        show (if (t1.internalList.getD idx .empty).isDummy = false ∧
            t1.updateUsed = true then t1.used + 1 else t1.used) = t.used + 1 ↔ _
        rw [hfl1, husd1]
        constructor
        · intro heq
          by_contra hd
          simp only [Bool.not_eq_false] at hd
          rw [if_neg (fun hcon => by
            simp only [hd] at hcon
            exact Bool.noConfusion hcon.1)] at heq
          omega
        · intro hd
          rw [if_pos ⟨hd, rfl⟩]
      · intro hfil
        rw [ht']
        show (if (t1.internalList.getD idx .empty).isDummy = false ∧
            t1.updateUsed = true then t1.used + 1 else t1.used) = t.used + 1
        cases hsl : t1.internalList.getD idx .empty with
        | empty => rw [if_pos ⟨rfl, hfl1⟩, husd1]
        | dummy => rw [hsl] at hfil; exact Bool.noConfusion hfil
        | filled k2 v2 hv2 => rw [if_pos ⟨rfl, hfl1⟩, husd1]
  · rw [HashTable.update_eq_place ht] at hupd
    obtain ⟨idx, hlk, ht'⟩ := HashTable.placeEntry_some hupd
    refine ⟨t, idx, Or.inr ⟨ht, rfl⟩, hlk, rfl, hflag, ?_, ?_⟩
    · rw [ht']
      show (if (t.internalList.getD idx .empty).isDummy = false ∧
          t.updateUsed = true then t.used + 1 else t.used) = t.used + 1 ↔ _
      rw [hflag]
      constructor
      · intro heq
        by_contra hd
        simp only [Bool.not_eq_false] at hd
        rw [if_neg (fun hcon => by
          simp only [hd] at hcon
          exact Bool.noConfusion hcon.1)] at heq
        omega
      · intro hd
        rw [if_pos ⟨hd, rfl⟩]
    · intro hfil
      rw [ht']
      show (if (t.internalList.getD idx .empty).isDummy = false ∧
          t.updateUsed = true then t.used + 1 else t.used) = t.used + 1
      cases hsl : t.internalList.getD idx .empty with
      | empty => rw [if_pos ⟨rfl, hflag⟩]
      | dummy => rw [hsl] at hfil; exact Bool.noConfusion hfil
      | filled k2 v2 hv2 => rw [if_pos ⟨rfl, hflag⟩]

/-- Witness for C5: updating a fresh table (target slot `empty`, not a
tombstone) increments `usedCount` from 0 to 1. -/
theorem claim5_witness :
    ∃ (t1 : HashTable Nat Int) (idx : Nat),
      (((HashTable.fresh .simple : HashTable Nat Int).used + 1 >
          (HashTable.fresh .simple : HashTable Nat Int).size ∧
        HashTable.incrementSize 0 32 (fun _ => 0)
          (HashTable.fresh .simple) = some t1) ∨
        (¬ (HashTable.fresh .simple : HashTable Nat Int).used + 1 >
          (HashTable.fresh .simple : HashTable Nat Int).size ∧
          t1 = HashTable.fresh .simple)) ∧
      HashTable.lookupKey 32 (fun _ => 0) t1 5 false = some idx ∧
      t1.used = (HashTable.fresh .simple : HashTable Nat Int).used ∧
      t1.updateUsed = true ∧
      ((⟨8, 1, true, .simple,
        [.filled 5 (some 3) 0, .empty, .empty, .empty, .empty, .empty, .empty,
          .empty]⟩ : HashTable Nat Int).used =
        (HashTable.fresh .simple : HashTable Nat Int).used + 1 ↔
        (t1.internalList.getD idx .empty).isDummy = false) ∧
      ((t1.internalList.getD idx .empty).isFilled = true →
        (⟨8, 1, true, .simple,
          [.filled 5 (some 3) 0, .empty, .empty, .empty, .empty, .empty, .empty,
            .empty]⟩ : HashTable Nat Int).used =
        (HashTable.fresh .simple : HashTable Nat Int).used + 1) :=
  claim5_theorem (HashTable.fresh_WF _ .simple)
    (show HashTable.update (0 + 1) 32 (fun _ => 0) 5 (some 3)
      (HashTable.fresh .simple) = some _ by decide)

/-- Claim C6: whatever the (secret-keyed) hash function, inserting the
integer keys 0..7 with values `i*i` into a fresh default table causes no
resize (`used` reaches 8 with capacity still 8), and the update for key 8
doubles the capacity to 16 before placing the ninth entry; afterwards the
items are exactly the nine pairs `(i, i*i)`. -/
theorem claim6_theorem (h : Nat → Nat) :
    ∃ t8 t9 : HashTable Nat Nat,
      List.foldlM (m := Option)
        (fun acc p => HashTable.update 20 64 h p.1 p.2 acc)
        (HashTable.fresh .simple)
        ((List.range 8).map fun i => (i, some (i * i))) = some t8 ∧
      t8.size = 8 ∧ t8.used = 8 ∧
      HashTable.update 20 64 h 8 (some 64) t8 = some t9 ∧
      t9.size = 16 ∧ t9.used = 9 ∧
      (HashTable.items t9).Perm ((List.range 9).map fun i => (i, some (i * i))) := by
  have hif : HashTable.items (HashTable.fresh .simple : HashTable Nat Nat) = [] :=
    HashTable.itemsOfSlots_replicate _
  obtain ⟨t8, hfold, hperm8, hnd8, hfl8, husd8, hsz8, hst8, hlen8⟩ :=
    HashTable.insertList_simple (h := h) (w := 64) (f := 20)
      ((List.range 8).map fun i => (i, some (i * i)))
      (HashTable.fresh .simple) 3
      rfl rfl rfl (List.length_replicate ..)
      (by
        intro e he
        rw [List.eq_of_mem_replicate he]
        exact fun hcon => Entry.noConfusion hcon)
      (by
        intro p hp e he v hv hef
        rw [List.eq_of_mem_replicate he] at hef
        exact Entry.noConfusion hef)
      (by decide)
      (by decide)
      (by decide)
      (by decide)
      (by decide)
  have husd8' : t8.used = 8 := husd8
  have hsz8' : t8.size = 8 := hsz8
  have hlen8' : t8.internalList.length = 8 := hlen8
  have hperm8' : (HashTable.items t8).Perm
      ((List.range 8).map fun i => (i, some (i * i))) := by
    rw [hif] at hperm8
    simpa using hperm8
  have hcnt8 : (HashTable.items t8).length = 8 := hperm8'.length_eq.trans rfl
  have hdist8 : ((HashTable.items t8).map Prod.fst).Pairwise (· ≠ ·) :=
    ((hperm8'.map Prod.fst).pairwise_iff (@Ne.symm Nat)).mpr (by decide)
  have htrig : t8.used + 1 > t8.size := by omega
  obtain ⟨tm, hres, hpermm, hndm, hflm, husdm, hszm, hstm, hlenm⟩ :=
    HashTable.resize_fresh_simple (h := h) (w := 64) (f := 18) (t := t8) 3
      (by rw [hsz8']; decide)
      (by rw [hst8]; rfl)
      (by rw [hlen8', hsz8'])
      hdist8
      (by omega)
      (by omega)
      (by omega)
      (by omega)
  have hszm' : tm.size = 16 := by rw [hszm, hsz8']
  have husdm' : tm.used = 8 := by rw [husdm, husd8']
  have hpermm' : (HashTable.items tm).Perm
      ((List.range 8).map fun i => (i, some (i * i))) := hpermm.trans hperm8'
  have hcntm : (HashTable.items tm).length = 8 := hpermm'.length_eq.trans rfl
  have hnk8 : HashTable.NoKey tm 8 := by
    apply HashTable.noKey_of_not_mem_keys
    intro hmem
    have h1 : (8 : Nat) ∈ ((List.range 8).map fun i => (i, some (i * i))).map
        Prod.fst := (hpermm'.map Prod.fst).mem_iff.mp hmem
    revert h1
    decide
  obtain ⟨t9, hplace, hperm9, hnd9, hnk9, hsz9, hst9, hfl9, hlen9, husd9⟩ :=
    HashTable.placeEntry_fresh_simple (h := h) (w := 64) (k := 8)
      (v := some 64) (t := tm) 4
      (by rw [hszm']; decide)
      (by rw [hstm, hst8]; rfl)
      hlenm
      hndm
      hnk8
      (by omega)
      (by omega)
  have hres19 : HashTable.runOp h 64 19 (.resize : HashTable.Op Nat Nat) t8
      = some tm := hres
  have h20 := HashTable.update_eq_resize (f := 19) (w := 64) (h := h)
    (k := (8 : Nat)) (v := (some 64 : Option Nat)) htrig
  rw [hres19] at h20
  dsimp only at h20
  have h20' : HashTable.update 20 64 h 8 (some 64) t8 = some t9 :=
    h20.trans hplace
  refine ⟨t8, t9, hfold, hsz8', husd8', h20', ?_, ?_, ?_⟩
  · rw [hsz9, hszm']
  · rw [husd9, hflm, if_pos rfl, husdm']
  · have he9 : (List.range 9).map (fun i => (i, some (i * i)))
        = ((List.range 8).map fun i => (i, some (i * i)))
          ++ [((8 : Nat), some (64 : Nat))] := by decide
    rw [he9]
    exact hperm9.trans ((hpermm'.cons _).trans (List.perm_append_singleton _ _).symm)

/-- Claim C10: `get` signals an absent key with the same sentinel `None`
(`none`) that it returns for a key stored with value `None`: after
`update(k, None)` every terminating `get(k)` returns `none`, and on any
table holding no filled slot for a key, every terminating `get` of that
key also returns `none` — the two outcomes are indistinguishable through
`get`. -/
theorem claim10_theorem {α β : Type} [DecidableEq α] {h : α → Nat} :
    (∀ (t t' : HashTable α β) (k : α) (fuel lf : Nat), HashTable.WF h t →
      HashTable.update fuel lf h k none t = some t' →
      ∀ F r, HashTable.get F h t' k = some r → r = none) ∧
    (∀ (s : HashTable α β) (k : α), HashTable.NoKey s k →
      ∀ F r, HashTable.get F h s k = some r → r = none) := by
  constructor
  · intro t t' k fuel lf hwf hupd F r hget
    exact (HashTable.goodAt_get (HashTable.update_goodAt hwf hupd)).1 F r hget
  · intro s k hnk F r hget
    unfold HashTable.get at hget
    obtain ⟨idx, hlk, hrv⟩ := Option.map_eq_some'.mp hget
    rw [← hrv]
    cases hsl : s.internalList.getD idx .empty with
    | empty => rfl
    | dummy => rfl
    | filled k3 v3 hv3 =>
      obtain ⟨j3, _, hstop3, _, hidx3⟩ := HashTable.lookupKey_sound hlk
      have hk3 : k3 = k := by
        unfold HashTable.stopB at hstop3
        rw [← hidx3, hsl] at hstop3
        simp only [decide_eq_true_eq] at hstop3
        exact hstop3.2
      exact absurd rfl
        (hnk _ (HashTable.getD_filled_mem (hk3 ▸ hsl)) v3 hv3)

/-! ## Helper lemmas: siphash arithmetic -/

theorem natBitsAux_lt : ∀ (fuel n : Nat), n ≤ fuel → n < 2 ^ natBitsAux fuel n := by
  intro fuel
  induction fuel with
  | zero =>
    intro n hn
    have : n = 0 := by omega
    subst this
    simp [natBitsAux]
  | succ fuel ih =>
    intro n hn
    by_cases h0 : n = 0
    · subst h0
      simp [natBitsAux]
    · have hrec := ih (n / 2) (by omega)
      unfold natBitsAux
      rw [if_neg h0, pow_succ]
      omega

theorem pyBitLen_lt (n : Nat) : n < 2 ^ pyBitLen n := by
  unfold pyBitLen
  by_cases h0 : n = 0
  · subst h0; simp
  · rw [if_neg h0]
    exact natBitsAux_lt n n le_rfl

theorem sizeBits_natCast (m : Nat) : sizeBits (m : Int) = pyBitLen m := by
  unfold sizeBits
  rw [if_neg (by omega), Int.toNat_natCast]

theorem pyOr_natCast (m b : Nat) : pyOr (m : Int) b = ((m ||| b : Nat) : Int) := by
  unfold pyOr
  rw [if_pos (by omega), Int.toNat_natCast]

theorem pyOr_neg_lt_zero (a : Int) (b : Nat) (ha : a < 0) : pyOr a b < 0 := by
  unfold pyOr
  rw [if_neg (by omega)]
  show -((((-a - 1).toNat - ((-a - 1).toNat &&& b) : Nat)) : Int) - 1 < 0
  have hnn : (0 : Int) ≤ (((-a - 1).toNat - ((-a - 1).toNat &&& b) : Nat) : Int) :=
    Int.natCast_nonneg _
  omega

theorem addSizeByte_natCast (m : Nat) :
    addSizeByte (m : Int) =
      ((m ||| ((((pyBitLen m + 7) >>> 3) &&& 0xFF) <<<
        ((((pyBitLen m + 7) >>> 3 + 8) >>> 3 <<< 6) - 8)) : Nat) : Int) := by
  unfold addSizeByte
  rw [sizeBits_natCast, pyOr_natCast]

theorem addSizeByte_neg (msg : Int) (hm : msg < 0) : addSizeByte msg < 0 := by
  unfold addSizeByte
  exact pyOr_neg_lt_zero _ _ hm

theorem addSizeByte_natCast_nonneg (m : Nat) : 0 ≤ addSizeByte (m : Int) := by
  rw [addSizeByte_natCast]
  exact Int.natCast_nonneg _

theorem upper64_neg (z : Int) (hz : z < 0) : upper64 z < 0 :=
  Int.fdiv_neg' hz (by positivity)

theorem upper64_nonneg (z : Int) (hz : 0 ≤ z) : 0 ≤ upper64 z :=
  Int.fdiv_nonneg hz (by positivity)

theorem upper64_lt (z : Int) (hz : 0 < z) : upper64 z < z := by
  unfold upper64
  rw [Int.fdiv_eq_ediv _ (by positivity)]
  exact Int.ediv_lt_of_lt_mul (by positivity)
    (lt_mul_of_one_lt_right hz (by norm_num))

theorem compressRest_neg_none (st : SipState) :
    ∀ (fuel : Nat) (u : Int), u < 0 → ∀ st2, compressRest fuel u st2 = none := by
  intro fuel
  induction fuel with
  | zero =>
    intro u hu st2
    unfold compressRest
    rw [if_neg (by omega)]
  | succ fuel ih =>
    intro u hu st2
    unfold compressRest
    rw [if_neg (by omega)]
    exact ih (upper64 u) (upper64_neg u hu) _

theorem compressRest_total :
    ∀ (n : Nat) (u : Int), 0 ≤ u → u.toNat ≤ n → ∀ st2,
      ∃ st', compressRest n u st2 = some st' := by
  intro n
  induction n with
  | zero =>
    intro u hu hle st2
    have : u = 0 := by omega
    subst this
    exact ⟨st2, rfl⟩
  | succ n ih =>
    intro u hu hle st2
    by_cases h0 : u = 0
    · subst h0
      exact ⟨st2, by unfold compressRest; rw [if_pos rfl]⟩
    · have hpos : 0 < u := by omega
      have hlt := upper64_lt u hpos
      have hnn := upper64_nonneg u hu
      obtain ⟨st', hst'⟩ := ih (upper64 u) hnn (by omega)
        (compressWord (lower64 u) st2)
      refine ⟨st', ?_⟩
      unfold compressRest
      rw [if_neg h0]
      exact hst'

theorem siphashMain_nonneg_total (key : Nat) (aneg : Bool) (msg : Int)
    (hm : 0 ≤ msg) :
    ∃ fuel r, siphashMain fuel key aneg msg = some r := by
  have hnn : 0 ≤ addSizeByte msg := by
    obtain ⟨m, rfl⟩ := Int.eq_ofNat_of_zero_le hm
    exact addSizeByte_natCast_nonneg m
  have hun : 0 ≤ upper64 (addSizeByte msg) := upper64_nonneg _ hnn
  obtain ⟨st', hst'⟩ := compressRest_total (upper64 (addSizeByte msg)).toNat
    (upper64 (addSizeByte msg)) hun le_rfl
    (compressWord (lower64 (addSizeByte msg)) (sipInit key))
  refine ⟨(upper64 (addSizeByte msg)).toNat, ?_⟩
  simp only [siphashMain, compression]
  rw [hst']
  exact ⟨_, rfl⟩

theorem siphashMain_neg_none (key : Nat) (aneg : Bool) (msg : Int)
    (hm : msg < 0) (fuel : Nat) : siphashMain fuel key aneg msg = none := by
  unfold siphashMain compression
  rw [compressRest_neg_none (sipInit key) fuel _
    (upper64_neg _ (addSizeByte_neg msg hm)) _]
  rfl

/-- Claim C7, amended: hashing terminates for every string, every
non-negative integer and every identity-surrogate, but NOT for negative
integers: a negative integer is used as-is (not by absolute magnitude),
its tagged message stays negative, and the word loop of
`SipHash.__compression` then never terminates (`upper` stays negative
under arithmetic shift), so `hash(K, n) = hash(K, -n)` fails for every
negative `n`. -/
theorem claim7_theorem :
    (∀ (key : Nat) (aneg : Bool) (s : String),
      ∃ fuel r, getHash fuel key aneg (.str s) = some r) ∧
    (∀ (key : Nat) (aneg : Bool) (n : Int), 0 ≤ n →
      ∃ fuel r, getHash fuel key aneg (.int n) = some r) ∧
    (∀ (key : Nat) (aneg : Bool) (i : Nat),
      ∃ fuel r, getHash fuel key aneg (.other i) = some r) ∧
    (∀ (key : Nat) (aneg : Bool) (n : Int), n < 0 →
      ∀ fuel, getHash fuel key aneg (.int n) = none) := by
  refine ⟨?_, ?_, ?_, ?_⟩
  · intro key aneg s
    exact siphashMain_nonneg_total key aneg _ (Int.natCast_nonneg _)
  · intro key aneg n hn
    exact siphashMain_nonneg_total key aneg n hn
  · intro key aneg i
    exact siphashMain_nonneg_total key aneg _ (Int.natCast_nonneg _)
  · intro key aneg n hn fuel
    exact siphashMain_neg_none key aneg n hn fuel

/-- Witness for C7: hashing the non-negative integer 5 terminates. -/
theorem claim7_witness :
    ∃ fuel r, getHash fuel 0 true (.int 5) = some r :=
  claim7_theorem.2.1 0 true 5 (by decide)

/-- Counterexample to C7 as stated: hashing the integer `-5` never
terminates (no fuel suffices), so hashing is not total over the input
domain and `hash(K, -5)` is not `hash(K, 5)`. -/
theorem claim7_counterexample :
    ¬ ∃ fuel r, getHash fuel 0 true (.int (-5)) = some r := by
  intro ⟨fuel, r, hr⟩
  rw [show getHash fuel 0 true (.int (-5))
    = siphashMain fuel 0 true (-5) from rfl,
    siphashMain_neg_none 0 true (-5) (by decide) fuel] at hr
  exact Option.noConfusion hr

/-- Claim C8, amended: for a non-negative message `m`,
`__add_size_byte` produces `m ||| (L <<< (64*W - 8))` — the byte length
`L' = ceil(bitlen(m)/8)` (with `bitlen(0) = 1`) reduced mod 256 is
written into the top byte of the final 8-byte word-aligned block, where
`W = (L' + 8) >> 3` is the word count — and the tag never overlaps the
message bits (`m < 2^(64*W - 8)`).  The original claim's shift `8*W - 8`
is off by a factor of 8 in the word width: see the counterexample. -/
theorem claim8_theorem (m : Nat) :
    addSizeByte (m : Int) = ((sizeTagSpec m : Nat) : Int) ∧
    m < 2 ^ (64 * (((pyBitLen m + 7) >>> 3 + 8) >>> 3) - 8) := by
  constructor
  · have hL : ((pyBitLen m + 7) >>> 3) &&& 0xFF
        = ((pyBitLen m + 7) >>> 3) % 256 := by
      rw [show (0xFF : Nat) = 2 ^ 8 - 1 from rfl, Nat.and_pow_two_sub_one_eq_mod]
    have hS : (((pyBitLen m + 7) >>> 3 + 8) >>> 3) <<< 6 - 8
        = 64 * (((pyBitLen m + 7) >>> 3 + 8) >>> 3) - 8 := by
      rw [Nat.shiftLeft_eq]
      omega
    rw [addSizeByte_natCast, hL, hS]
    simp only [sizeTagSpec]
  · have h1 := pyBitLen_lt m
    have h2 : pyBitLen m ≤ 64 * (((pyBitLen m + 7) >>> 3 + 8) >>> 3) - 8 := by
      rw [Nat.shiftRight_eq_div_pow, Nat.shiftRight_eq_div_pow]
      omega
    exact h1.trans_le (Nat.pow_le_pow_right (by omega) h2)

/-- Counterexample to C8's `8*W - 8` shift: for the one-byte message 5
(`L' = 1`, `W = 1`) the code places the length byte at bit 56
(`addSizeByte 5 = 5 + 2^56`), while the claimed formula puts it at bit 0,
yielding `5 ||| 1 = 5`. -/
theorem claim8_counterexample :
    addSizeByte (5 : Int) ≠ ((sizeTagClaimed 5 : Nat) : Int) := by
  decide

/-- Claim C9: constructing a table with a `collision_resolution` value
outside `{simple, modified, pythonic}` fails immediately (the
constructor's assert), producing no table; each valid value succeeds and
the chosen strategy is never changed by any later `update` or `remove`. -/
theorem claim9_theorem {α β : Type} [DecidableEq α] :
    (∀ s : String, s ∉ (["simple", "modified", "pythonic"] : List String) →
      HashTable.init (α := α) (β := β) s = none) ∧
    HashTable.init (α := α) (β := β) "simple" = some (HashTable.fresh .simple) ∧
    HashTable.init (α := α) (β := β) "modified" = some (HashTable.fresh .modified) ∧
    HashTable.init (α := α) (β := β) "pythonic" = some (HashTable.fresh .pythonic) ∧
    (∀ (fuel lf : Nat) (h : α → Nat) (k : α) (v : Option β)
      (t t' : HashTable α β), HashTable.update fuel lf h k v t = some t' →
      t'.strategy = t.strategy) ∧
    (∀ (fuel : Nat) (h : α → Nat) (k : α) (t t' : HashTable α β),
      HashTable.remove fuel h t k = some t' → t'.strategy = t.strategy) := by
  refine ⟨?_, rfl, rfl, rfl, ?_, ?_⟩
  · intro s hs
    unfold HashTable.init
    rw [if_neg (fun hcon => hs (by rw [hcon]; simp)),
      if_neg (fun hcon => hs (by rw [hcon]; simp)),
      if_neg (fun hcon => hs (by rw [hcon]; simp))]
  · intro fuel lf h k v t t' hupd
    exact HashTable.runOp_strategy fuel _ t t' hupd
  · intro fuel h k t t' hrm
    obtain ⟨idx, _, ht'⟩ := HashTable.remove_some hrm
    subst ht'
    split <;> rfl

/-- Witness for C9: an unrecognized strategy string is rejected, a valid
one produces the fresh table with that strategy. -/
theorem claim9_witness :
    HashTable.init (α := Nat) (β := Int) "robin-hood" = none ∧
    HashTable.init (α := Nat) (β := Int) "pythonic"
      = some (HashTable.fresh .pythonic) :=
  ⟨claim9_theorem.1 "robin-hood" (by decide), claim9_theorem.2.2.2.1⟩

/-- Witness for C10: storing `None` under key 5 makes `get(5)` return
`none`, exactly like `get(7)` on a fresh table where 7 was never
inserted. -/
theorem claim10_witness :
    (∀ F r, HashTable.get F (fun _ => 0)
      (⟨8, 1, true, .simple,
        [.filled 5 none 0, .empty, .empty, .empty, .empty, .empty, .empty,
          .empty]⟩ : HashTable Nat Int) 5 = some r → r = none) ∧
    (∀ F r, HashTable.get F (fun _ => 0)
      (HashTable.fresh .simple : HashTable Nat Int) 7 = some r → r = none) :=
  ⟨claim10_theorem.1 (HashTable.fresh .simple) _ 5 1 32
      (HashTable.fresh_WF _ .simple)
      (show HashTable.update 1 32 (fun _ => 0) 5 none (HashTable.fresh .simple)
        = some _ by decide),
    claim10_theorem.2 (HashTable.fresh .simple) 7
      (by
        intro e he v hv
        rw [List.eq_of_mem_replicate he]
        exact fun hcon => Entry.noConfusion hcon)⟩

end Hashing
